import Mathlib

/-!
# KirisameDB: arena allocator and memtable

A shallow embedding of `src/util/arena.h`, `src/util/arena.cpp` and
`src/db/memtable.cpp`, followed by the properties proved about them.

Conventions of the embedding.

* A byte is a natural number (a string is a `List Nat`); every byte the code writes is
  below 256.
* A `const char*` into a record is the memory content from that address on, a
  `List Nat`; `p + n` is `p.drop n`. A `char*` into a buffer under construction
  is the buffer together with an offset.
* `size_t` lengths of live strings are natural numbers. Conversions to
  `uint32_t` and 64-bit shifts are reduced modulo `2^32` and `2^64` explicitly.
* A failed `assert`, an out-of-bounds write and a read through a pointer the
  code never checked are `none`.
-/

namespace kirisamedb

/-! ## Helpers of `util/coding.h` -/

/-- Modelled from the spec: the loop of `VarintLength` (`util/coding.h` is not among the
sources): one more byte for every 7 bits beyond the first seven (`v >>= 7` is `v / 128`). -/
def VarintLengthLoop : Nat → Nat → Nat → Nat
  | 0, _, len => len
  | fuel + 1, v, len => if 128 ≤ v then VarintLengthLoop fuel (v / 128) (len + 1) else len

/-- Modelled from the spec: `int VarintLength(uint64_t v)` of `util/coding.h`, the number of
bytes of the 7-bits-per-byte encoding of `v`. Nine shifts by 7 exhaust a 64-bit value. -/
def VarintLength (v : Nat) : Nat := VarintLengthLoop 9 (v % 2 ^ 64) 1

/-- Modelled from the spec: the bytes `EncodeVarint32` emits for a `uint32_t`: 7 payload
bits per byte, least significant group first, bit 7 (value 128) set on every byte but the
last, at most 5 bytes. -/
def Varint32Bytes (v : Nat) : List Nat :=
  if v < 2 ^ 7 then [v]
  else if v < 2 ^ 14 then [v % 128 + 128, v / 2 ^ 7]
  else if v < 2 ^ 21 then [v % 128 + 128, v / 2 ^ 7 % 128 + 128, v / 2 ^ 14]
  else if v < 2 ^ 28 then
    [v % 128 + 128, v / 2 ^ 7 % 128 + 128, v / 2 ^ 14 % 128 + 128, v / 2 ^ 21]
  else
    [v % 128 + 128, v / 2 ^ 7 % 128 + 128, v / 2 ^ 14 % 128 + 128,
      v / 2 ^ 21 % 128 + 128, v / 2 ^ 28]

/-- Modelled from the spec: the bytes `EncodeFixed64` emits: the 64-bit value, least
significant byte first. -/
def Fixed64Bytes (v : Nat) : List Nat :=
  [v % 256, v / 2 ^ 8 % 256, v / 2 ^ 16 % 256, v / 2 ^ 24 % 256,
    v / 2 ^ 32 % 256, v / 2 ^ 40 % 256, v / 2 ^ 48 % 256, v / 2 ^ 56 % 256]

/-- Write of `src` into `buf` at offset `dst` (`std::memcpy(buf + dst, src, n)`); `none` when
the write would leave the buffer. -/
def memcpy (buf : List Nat) (dst : Nat) (src : List Nat) : Option (List Nat) :=
  if dst + src.length ≤ buf.length then
    some (buf.take dst ++ src ++ buf.drop (dst + src.length))
  else none

/-- Modelled from the spec: `char* EncodeVarint32(char* dst, uint32_t v)` of `util/coding.h`.
The argument is converted to `uint32_t`; the result is the buffer and the pointer past the
bytes written. -/
def EncodeVarint32 (buf : List Nat) (dst : Nat) (v : Nat) : Option (List Nat × Nat) :=
  (memcpy buf dst (Varint32Bytes (v % 2 ^ 32))).map
    fun b => (b, dst + (Varint32Bytes (v % 2 ^ 32)).length)

/-- Modelled from the spec: `void EncodeFixed64(char* dst, uint64_t value)` of
`util/coding.h`. -/
def EncodeFixed64 (buf : List Nat) (dst : Nat) (value : Nat) : Option (List Nat) :=
  memcpy buf dst (Fixed64Bytes (value % 2 ^ 64))

/-- Modelled from the spec: `uint64_t DecodeFixed64(const char* ptr)` of `util/coding.h`:
the little-endian value of the 8 bytes at `ptr`. -/
def DecodeFixed64 (ptr : List Nat) : Nat :=
  ptr.getD 0 0 + ptr.getD 1 0 * 2 ^ 8 + ptr.getD 2 0 * 2 ^ 16 + ptr.getD 3 0 * 2 ^ 24 +
    ptr.getD 4 0 * 2 ^ 32 + ptr.getD 5 0 * 2 ^ 40 + ptr.getD 6 0 * 2 ^ 48 +
    ptr.getD 7 0 * 2 ^ 56

/-- Modelled from the spec: the loop of `GetVarint32Ptr` (`util/coding.h`), reading at most
`limit` bytes with `shift = 0, 7, .., 28`: a byte of 128 or more carries 7 payload bits and
announces another byte. The result is the decoded `uint32_t` and the pointer past it;
`none` is the null pointer of a malformed or truncated varint. -/
def GetVarint32PtrLoop : Nat → Nat → Nat → List Nat → Option (Nat × List Nat)
  | 0, _, _, _ => none
  | _ + 1, _, _, [] => none
  | limit + 1, shift, result, byte :: p =>
    if 28 < shift then none
    else if 128 ≤ byte then
      GetVarint32PtrLoop limit (shift + 7) (result + byte % 128 * 2 ^ shift) p
    else some ((result + byte * 2 ^ shift) % 2 ^ 32, p)

/-- Modelled from the spec: `const char* GetVarint32Ptr(const char* p, const char* limit,
uint32_t* value)` of `util/coding.h`; the limit is given as a byte count. -/
def GetVarint32Ptr (p : List Nat) (limit : Nat) : Option (Nat × List Nat) :=
  GetVarint32PtrLoop limit 0 0 p

/-! ## Slices, value types, comparators, status -/

/-- Modelled from the spec: `Slice` of `include/slice.h`, a pointer and a length: the memory
from `data()` on, and `size()`. -/
structure Slice where
  data_ : List Nat
  size_ : Nat

/-- The bytes a slice denotes. -/
def Slice.ToBytes (s : Slice) : List Nat := s.data_.take s.size_

/-- Modelled from the spec: `enum ValueType` of `db/dbformat.h` (not among the sources),
the value type code that distinguishes `Value` from `Deletion`. -/
inductive ValueType where
  | kTypeDeletion
  | kTypeValue
  deriving DecidableEq

/-- Modelled from the spec: the numeric code of a value type, one byte of the tag. -/
def ValueType.code : ValueType → Nat
  | .kTypeDeletion => 0
  | .kTypeValue => 1

/-- Modelled from the spec: `kValueTypeForSeek` of `db/dbformat.h`, the highest type code,
used in a seek target so that every record of the snapshot sequence sorts at or after it. -/
def kValueTypeForSeek : ValueType := .kTypeValue

/-- Modelled from the spec: the caller-supplied user-key comparator of
`include/comparator.h`, a three-way comparison of byte strings that is a total preorder. -/
structure Comparator where
  Compare : List Nat → List Nat → Ordering
  total_order : Batteries.TransCmp Compare

/-- Modelled from the spec: the default comparator, lexicographic byte order. -/
def BytewiseCompare : List Nat → List Nat → Ordering
  | [], [] => .eq
  | [], _ :: _ => .lt
  | _ :: _, [] => .gt
  | a :: as, b :: bs =>
    if a < b then .lt else if b < a then .gt else BytewiseCompare as bs

/-- Modelled from the spec: `Status` of `include/status.h`, as far as `Get` uses it. -/
inductive Status where
  | OK
  | NotFound (msg : List Nat)
  deriving DecidableEq

/-- Modelled from the spec: `ExtractUserKey` of `db/dbformat.h`: an internal key without its
8-byte tag. -/
def ExtractUserKey (internal_key : List Nat) : List Nat :=
  internal_key.take (internal_key.length - 8)

/-- Modelled from the spec: the tag of an internal key, `DecodeFixed64` of its last 8
bytes. -/
def ExtractTag (internal_key : List Nat) : Nat :=
  DecodeFixed64 (internal_key.drop (internal_key.length - 8))

/-- Modelled from the spec: `InternalKeyComparator::Compare` of `db/dbformat.h`: user key
ascending under the user comparator, then the 8-byte tag (sequence and type) descending. -/
def InternalKeyComparator.Compare (user_comparator : Comparator) (akey bkey : List Nat) :
    Ordering :=
  match user_comparator.Compare (ExtractUserKey akey) (ExtractUserKey bkey) with
  | .eq =>
    let anum := ExtractTag akey
    let bnum := ExtractTag bkey
    if anum > bnum then .lt else if anum < bnum then .gt else .eq
  | r => r

/-- Modelled from the spec: `LookupKey` of `db/dbformat.h`, the encoding
`varint32(size + 8) ++ user_key ++ fixed64((sequence << 8) | kValueTypeForSeek)` of a user
key and a snapshot sequence, with `kstart_` the offset of the user key. -/
structure LookupKey where
  start_ : List Nat
  kstart_ : Nat

/-- Modelled from the spec: the constructor `LookupKey(user_key, sequence)`. -/
def LookupKey.new (user_key : List Nat) (sequence : Nat) : LookupKey :=
  { start_ := Varint32Bytes ((user_key.length + 8) % 2 ^ 32) ++ user_key ++
      Fixed64Bytes (((sequence <<< 8) % 2 ^ 64) ||| kValueTypeForSeek.code)
    kstart_ := (Varint32Bytes ((user_key.length + 8) % 2 ^ 32)).length }

/-- Modelled from the spec: `LookupKey::memtable_key()`, the whole encoding. -/
def LookupKey.memtable_key (k : LookupKey) : Slice :=
  { data_ := k.start_, size_ := k.start_.length }

/-- Modelled from the spec: `LookupKey::user_key()`, the encoding without length prefix and
tag. -/
def LookupKey.user_key (k : LookupKey) : Slice :=
  { data_ := k.start_.drop k.kstart_, size_ := k.start_.length - k.kstart_ - 8 }

/-! ## `db/memtable.cpp` -/

/-- `GetLengthPrefixedSlice(const char* data)`. On a null result of `GetVarint32Ptr` the
source builds a slice from a null pointer; the embedding gives the empty slice. -/
def GetLengthPrefixedSlice (data : List Nat) : Slice :=
  match GetVarint32Ptr data 5 with
  | some (len, p) => { data_ := p, size_ := len }
  | none => { data_ := [], size_ := 0 }

/-- `MemTable::KeyComparator::operator()`: compare two records by their length-prefixed
internal keys. -/
def KeyComparator (comparator : Comparator) (aptr bptr : List Nat) : Ordering :=
  let a := GetLengthPrefixedSlice aptr
  let b := GetLengthPrefixedSlice bptr
  InternalKeyComparator.Compare comparator a.ToBytes b.ToBytes

/-! ### The ordered index (`db/skiplist.h`) -/

/-- Modelled from the spec: `SkipList::Insert` of `db/skiplist.h` (not among the sources).
The index is the list of its keys in order; the new key is linked in front of the first
key that is not smaller. -/
def SkipList.Insert (compare : List Nat → List Nat → Ordering) :
    List (List Nat) → List Nat → List (List Nat)
  | [], key => [key]
  | x :: rest, key =>
    if compare x key = .lt then x :: SkipList.Insert compare rest key else key :: x :: rest

/-- Modelled from the spec: `SkipList::Iterator`: the index and the current node, given as
the part of the index that starts at the node (empty for the null node). -/
structure SkipList.Iterator where
  list_ : List (List Nat)
  node_ : List (List Nat)

/-- Modelled from the spec: a new iterator is not valid. -/
def SkipList.Iterator.new (list : List (List Nat)) : SkipList.Iterator :=
  { list_ := list, node_ := [] }

/-- Modelled from the spec: `Iterator::Valid`. -/
def SkipList.Iterator.Valid (it : SkipList.Iterator) : Bool := !it.node_.isEmpty

/-- Modelled from the spec: `Iterator::key`, the key of the current node (a record pointer);
the empty record stands for the read through a null node. -/
def SkipList.Iterator.key (it : SkipList.Iterator) : List Nat := it.node_.headD []

/-- Modelled from the spec: `Iterator::Next`. -/
def SkipList.Iterator.Next (it : SkipList.Iterator) : SkipList.Iterator :=
  { it with node_ := it.node_.tail }

/-- Modelled from the spec: `Iterator::SeekToFirst`. -/
def SkipList.Iterator.SeekToFirst (it : SkipList.Iterator) : SkipList.Iterator :=
  { it with node_ := it.list_ }

/-- Modelled from the spec: `Iterator::Seek`: advance to the first key that is not smaller
than the target. -/
def SkipList.Iterator.Seek (compare : List Nat → List Nat → Ordering)
    (it : SkipList.Iterator) (target : List Nat) : SkipList.Iterator :=
  { it with node_ := it.list_.dropWhile fun x => compare x target = .lt }

/-! ### The table -/

/-- `class MemTable`: the user comparator wrapped by `comparator_`, the reference count and
the index `table_`. The arena behind the records is represented by the records themselves. -/
structure MemTable where
  comparator_ : Comparator
  refs_ : Int
  table_ : List (List Nat)

/-- `MemTable::MemTable(comparator)`. -/
def MemTable.new (comparator : Comparator) : MemTable :=
  { comparator_ := comparator, refs_ := 0, table_ := [] }

/-- The length `encoded_len` that `MemTable::Add` requests from the arena. -/
def MemTable.encoded_len (key value : List Nat) : Nat :=
  let key_size := key.length
  let val_size := value.length
  let internal_key_size := key_size + 8
  VarintLength internal_key_size + internal_key_size + VarintLength val_size + val_size

/-- Lines 74 to 87 of `MemTable::Add`: the record written into the `encoded_len` bytes the
arena hands out, whose prior content is `fresh`. `none` when a write leaves the buffer or
the final assertion fails. -/
def MemTable.AddRecord (fresh : Nat → Nat) (s : Nat) (type : ValueType)
    (key value : List Nat) : Option (List Nat) := do
  let key_size := key.length
  let val_size := value.length
  let internal_key_size := key_size + 8
  let encoded_len := VarintLength internal_key_size + internal_key_size +
    VarintLength val_size + val_size
  let buf := (List.range encoded_len).map fresh
  let (buf, header) ← EncodeVarint32 buf 0 internal_key_size
  let buf ← memcpy buf header key
  let header := header + key_size
  let buf ← EncodeFixed64 buf header (((s <<< 8) % 2 ^ 64) ||| type.code)
  let header := header + 8
  let (buf, header) ← EncodeVarint32 buf header val_size
  let buf ← memcpy buf header value
  if header + val_size = encoded_len then some buf else none

/-- `MemTable::Add`: write the record and insert its address into the index. -/
def MemTable.Add (m : MemTable) (fresh : Nat → Nat) (s : Nat) (type : ValueType)
    (key value : List Nat) : Option MemTable :=
  (MemTable.AddRecord fresh s type key value).map fun buf =>
    { m with table_ := SkipList.Insert (KeyComparator m.comparator_) m.table_ buf }

/-- `MemTable::Get`. The result is the returned flag with the final content of `*value` and
`*s`; `none` when the landed record has no readable length prefix or a key length below 8. -/
def MemTable.Get (m : MemTable) (key : LookupKey) (value : List Nat) (s : Status) :
    Option (Bool × List Nat × Status) :=
  let memkey := key.memtable_key
  let iter := (SkipList.Iterator.new m.table_).Seek (KeyComparator m.comparator_) memkey.data_
  if iter.Valid then
    let entry := iter.key
    match GetVarint32Ptr entry 5 with
    | none => none
    | some (key_length, key_ptr) =>
      if key_length < 8 then none
      else if m.comparator_.Compare
          (Slice.ToBytes { data_ := key_ptr, size_ := key_length - 8 })
          key.user_key.ToBytes = .eq then
        let tag := DecodeFixed64 (key_ptr.drop (key_length - 8))
        if tag &&& 0xff = ValueType.kTypeValue.code then
          let v := GetLengthPrefixedSlice (key_ptr.drop key_length)
          some (true, v.ToBytes, s)
        else if tag &&& 0xff = ValueType.kTypeDeletion.code then
          some (true, value, Status.NotFound [])
        else some (false, value, s)
      else some (false, value, s)
  else some (false, value, s)

/-- `class MemTableIterator`: the wrapped index iterator. -/
structure MemTableIterator where
  iter_ : SkipList.Iterator

/-- `MemTable::NewIterator`. -/
def MemTable.NewIterator (m : MemTable) : MemTableIterator :=
  { iter_ := SkipList.Iterator.new m.table_ }

/-- `MemTableIterator::Valid`. -/
def MemTableIterator.Valid (it : MemTableIterator) : Bool := it.iter_.Valid

/-- `MemTableIterator::SeekToFirst`. -/
def MemTableIterator.SeekToFirst (it : MemTableIterator) : MemTableIterator :=
  { iter_ := it.iter_.SeekToFirst }

/-- `MemTableIterator::Next`. -/
def MemTableIterator.Next (it : MemTableIterator) : MemTableIterator :=
  { iter_ := it.iter_.Next }

/-- `MemTableIterator::key`. -/
def MemTableIterator.key (it : MemTableIterator) : Slice :=
  GetLengthPrefixedSlice it.iter_.key

/-- `MemTableIterator::value`. -/
def MemTableIterator.value (it : MemTableIterator) : Slice :=
  let key_slice := GetLengthPrefixedSlice it.iter_.key
  GetLengthPrefixedSlice (key_slice.data_.drop key_slice.size_)

/-! ### Sequences of calls and full scans -/

/-- One call `Add(s, type, key, value)` together with the prior content `fresh` of the
memory the arena hands out for it. -/
structure AddCall where
  fresh : Nat → Nat
  s : Nat
  type : ValueType
  key : List Nat
  value : List Nat

/-- The arguments fit the record format: both lengths fit a `uint32_t` and the sequence
number fits the 56 bits the tag leaves for it. -/
def AddCall.InRange (c : AddCall) : Prop :=
  c.key.length + 8 < 2 ^ 32 ∧ c.value.length < 2 ^ 32 ∧ c.s < 2 ^ 56

/-- The calls of a list, made one after the other. -/
def MemTable.AddAll (m : MemTable) : List AddCall → Option MemTable
  | [] => some m
  | c :: cs => (m.Add c.fresh c.s c.type c.key c.value).bind fun m1 => m1.AddAll cs

/-- The loop `for (; it.Valid(); it.Next())`, collecting the record under the cursor; it
runs for at most `fuel` steps. -/
def MemTableIterator.Collect : Nat → MemTableIterator → List (List Nat)
  | 0, _ => []
  | fuel + 1, it => if it.Valid then it.iter_.key :: Collect fuel it.Next else []

/-- A full scan: `SeekToFirst`, then `Next` until the iterator is invalid. One step per
record of the index suffices. -/
def MemTable.Scan (m : MemTable) : List (List Nat) :=
  MemTableIterator.Collect m.table_.length m.NewIterator.SeekToFirst

/-! ## `util/arena.h`, `util/arena.cpp` -/

/-- `class Arena`. A pointer is an address. Each entry of `blocks_` is a pointer returned by
`new char[]`, paired with the size that was requested for it. -/
structure Arena where
  alloc_ptr_ : Nat
  alloc_bytes_remaining_ : Nat
  blocks_ : List (Nat × Nat)
  memory_usage_ : Nat
  deriving DecidableEq

/-- `Arena::Arena()`; the null pointer is address 0. -/
def Arena.new : Arena :=
  { alloc_ptr_ := 0, alloc_bytes_remaining_ := 0, blocks_ := [], memory_usage_ := 0 }

/-- `static const int kBlockSize = 4096`. -/
def kBlockSize : Nat := 4096

/-- `Arena::MemoryUsage`. -/
def Arena.MemoryUsage (a : Arena) : Nat := a.memory_usage_

/-- `Arena::AllocateNewBlock`. `sizeof_ptr` is `sizeof(char*)` of the target and `heap` the
address `new char[block_bytes]` returns. -/
def Arena.AllocateNewBlock (sizeof_ptr : Nat) (a : Arena) (block_bytes heap : Nat) :
    Nat × Arena :=
  let result := heap
  (result, { a with
    blocks_ := a.blocks_ ++ [(result, block_bytes)]
    memory_usage_ := a.memory_usage_ + (block_bytes + sizeof_ptr) })

/-- `Arena::AllocateFallback`. -/
def Arena.AllocateFallback (sizeof_ptr : Nat) (a : Arena) (bytes heap : Nat) : Nat × Arena :=
  if bytes > kBlockSize / 4 then
    Arena.AllocateNewBlock sizeof_ptr a bytes heap
  else
    let (p, a) := Arena.AllocateNewBlock sizeof_ptr a kBlockSize heap
    let a := { a with alloc_ptr_ := p, alloc_bytes_remaining_ := kBlockSize }
    let result := a.alloc_ptr_
    (result, { a with
      alloc_ptr_ := a.alloc_ptr_ + bytes
      alloc_bytes_remaining_ := a.alloc_bytes_remaining_ - bytes })

/-- `Arena::Allocate`; `none` is the failed assertion `bytes > 0`. -/
def Arena.Allocate (sizeof_ptr : Nat) (a : Arena) (bytes heap : Nat) : Option (Nat × Arena) :=
  if bytes > 0 then
    if bytes ≤ a.alloc_bytes_remaining_ then
      let result := a.alloc_ptr_
      some (result, { a with
        alloc_ptr_ := a.alloc_ptr_ + bytes
        alloc_bytes_remaining_ := a.alloc_bytes_remaining_ - bytes })
    else some (Arena.AllocateFallback sizeof_ptr a bytes heap)
  else none

/-- `Arena::AllocateAligned`; `size_t` has `8 * sizeof_ptr` bits, and `none` is the failed
assertion on the alignment of the result. -/
def Arena.AllocateAligned (sizeof_ptr : Nat) (a : Arena) (bytes heap : Nat) :
    Option (Nat × Arena) :=
  let align := if sizeof_ptr > 8 then sizeof_ptr else 8
  let current_mod := a.alloc_ptr_ &&& (align - 1)
  let slop := if current_mod = 0 then 0 else align - current_mod
  let needed := (bytes + slop) % 2 ^ (8 * sizeof_ptr)
  let (result, a) :=
    if needed ≤ a.alloc_bytes_remaining_ then
      (a.alloc_ptr_ + slop, { a with
        alloc_ptr_ := a.alloc_ptr_ + needed
        alloc_bytes_remaining_ := a.alloc_bytes_remaining_ - needed })
    else Arena.AllocateFallback sizeof_ptr a bytes heap
  if result &&& (align - 1) = 0 then some (result, a) else none

/-- One call on an arena: the request size and the address the heap would return for a new
block. -/
inductive ArenaCall where
  | Allocate (bytes heap : Nat)
  | AllocateAligned (bytes heap : Nat)
  deriving DecidableEq

/-- The effect of one call. -/
def Arena.Call (sizeof_ptr : Nat) (a : Arena) : ArenaCall → Option (Nat × Arena)
  | .Allocate bytes heap => Arena.Allocate sizeof_ptr a bytes heap
  | .AllocateAligned bytes heap => Arena.AllocateAligned sizeof_ptr a bytes heap

/-- The calls of a list, made one after the other; `none` when one of them fails. -/
def Arena.Run (sizeof_ptr : Nat) (a : Arena) : List ArenaCall → Option Arena
  | [] => some a
  | c :: cs => (Arena.Call sizeof_ptr a c).bind fun r => Arena.Run sizeof_ptr r.2 cs

/-! ## `util/arena.cpp` over a heap that can refuse

The definitions above follow the calls in which `new char[]` returns. The ones below are the
same functions with `std::bad_alloc` kept: the expression at line 54 either returns an
address or throws, and nothing in the arena catches the exception. -/

/-- How a call on the arena ends: it returns a pointer, an assertion fails, or
`std::bad_alloc` leaves the call. Each carries the members of the arena at that moment. -/
inductive ArenaOutcome where
  | returned (result : Nat) (a : Arena)
  | assertion (a : Arena)
  | bad_alloc (a : Arena)
  deriving DecidableEq

/-- `Arena::AllocateNewBlock`, with what `new char[block_bytes]` does as the argument
`heap`: `none` when it throws `std::bad_alloc`, which leaves the function before `blocks_`
and `memory_usage_` are touched (the error carries the arena as it is then), and the address
of the block otherwise. A `push_back` that cannot grow the vector throws the same exception
and leaves `blocks_` as it was, so `none` stands for it as well. -/
def Throwing.AllocateNewBlock (sizeof_ptr : Nat) (a : Arena) (block_bytes : Nat) :
    Option Nat → Except Arena (Nat × Arena)
  | none => .error a
  | some result =>
    .ok (result, { a with
      blocks_ := a.blocks_ ++ [(result, block_bytes)]
      memory_usage_ := a.memory_usage_ + (block_bytes + sizeof_ptr) })

/-- `Arena::AllocateFallback` over a heap that can refuse. In the second branch the
exception leaves before `alloc_ptr_` is assigned. -/
def Throwing.AllocateFallback (sizeof_ptr : Nat) (a : Arena) (bytes : Nat)
    (heap : Option Nat) : Except Arena (Nat × Arena) :=
  if bytes > kBlockSize / 4 then
    Throwing.AllocateNewBlock sizeof_ptr a bytes heap
  else
    match Throwing.AllocateNewBlock sizeof_ptr a kBlockSize heap with
    | .error a => .error a
    | .ok (p, a) =>
      let a := { a with alloc_ptr_ := p, alloc_bytes_remaining_ := kBlockSize }
      let result := a.alloc_ptr_
      .ok (result, { a with
        alloc_ptr_ := a.alloc_ptr_ + bytes
        alloc_bytes_remaining_ := a.alloc_bytes_remaining_ - bytes })

/-- `Arena::Allocate` over a heap that can refuse. -/
def Throwing.Allocate (sizeof_ptr : Nat) (a : Arena) (bytes : Nat) (heap : Option Nat) :
    ArenaOutcome :=
  if bytes > 0 then
    if bytes ≤ a.alloc_bytes_remaining_ then
      let result := a.alloc_ptr_
      .returned result { a with
        alloc_ptr_ := a.alloc_ptr_ + bytes
        alloc_bytes_remaining_ := a.alloc_bytes_remaining_ - bytes }
    else
      match Throwing.AllocateFallback sizeof_ptr a bytes heap with
      | .error a => .bad_alloc a
      | .ok (result, a) => .returned result a
  else .assertion a

/-- `Arena::AllocateAligned` over a heap that can refuse. -/
def Throwing.AllocateAligned (sizeof_ptr : Nat) (a : Arena) (bytes : Nat)
    (heap : Option Nat) : ArenaOutcome :=
  let align := if sizeof_ptr > 8 then sizeof_ptr else 8
  let current_mod := a.alloc_ptr_ &&& (align - 1)
  let slop := if current_mod = 0 then 0 else align - current_mod
  let needed := (bytes + slop) % 2 ^ (8 * sizeof_ptr)
  let r : Except Arena (Nat × Arena) :=
    if needed ≤ a.alloc_bytes_remaining_ then
      .ok (a.alloc_ptr_ + slop, { a with
        alloc_ptr_ := a.alloc_ptr_ + needed
        alloc_bytes_remaining_ := a.alloc_bytes_remaining_ - needed })
    else Throwing.AllocateFallback sizeof_ptr a bytes heap
  match r with
  | .error a => .bad_alloc a
  | .ok (result, a) =>
    if result &&& (align - 1) = 0 then .returned result a else .assertion a

/-- One call on an arena over a heap that can refuse: the request size and what
`new char[]` would do for a new block. -/
inductive Throwing.ArenaCall where
  | Allocate (bytes : Nat) (heap : Option Nat)
  | AllocateAligned (bytes : Nat) (heap : Option Nat)
  deriving DecidableEq

/-- The effect of one call. -/
def Throwing.Call (sizeof_ptr : Nat) (a : Arena) : Throwing.ArenaCall → ArenaOutcome
  | .Allocate bytes heap => Throwing.Allocate sizeof_ptr a bytes heap
  | .AllocateAligned bytes heap => Throwing.AllocateAligned sizeof_ptr a bytes heap

/-- The calls of a list, made one after the other by a caller that catches
`std::bad_alloc` and goes on with the arena as the exception left it; `none` when an
assertion fails, which ends the process. -/
def Throwing.Run (sizeof_ptr : Nat) (a : Arena) : List Throwing.ArenaCall → Option Arena
  | [] => some a
  | c :: cs =>
    match Throwing.Call sizeof_ptr a c with
    | .returned _ a1 => Throwing.Run sizeof_ptr a1 cs
    | .bad_alloc a1 => Throwing.Run sizeof_ptr a1 cs
    | .assertion _ => none

/-! ## Specification vocabulary -/

/-- The record layout of the format, in the words of the spec: varint32 key length, key
bytes, 8-byte tag, varint32 value length, value bytes. -/
def RecordLayout (s : Nat) (type : ValueType) (key value : List Nat) : List Nat :=
  Varint32Bytes (key.length + 8) ++ key ++ Fixed64Bytes (((s <<< 8) % 2 ^ 64) ||| type.code) ++
    Varint32Bytes value.length ++ value

/-- The record a call whose arguments fit the format writes. -/
def AddCall.Record (c : AddCall) : List Nat := RecordLayout c.s c.type c.key c.value

/-- The decoding steps of `MemTable::Get` (lines 105 to 114) applied to a record: the user
key, the sequence `tag >> 8`, the type code `tag & 0xff` and the value. -/
def DecodeRecord (entry : List Nat) : Option (List Nat × Nat × Nat × List Nat) :=
  match GetVarint32Ptr entry 5 with
  | none => none
  | some (key_length, key_ptr) =>
    if key_length < 8 then none
    else
      let user_key := Slice.ToBytes { data_ := key_ptr, size_ := key_length - 8 }
      let tag := DecodeFixed64 (key_ptr.drop (key_length - 8))
      let v := GetLengthPrefixedSlice (key_ptr.drop key_length)
      some (user_key, tag >>> 8, tag &&& 0xff, v.ToBytes)

/-- The internal key of a record: what `MemTableIterator::key` returns on it. -/
def RecordKey (entry : List Nat) : List Nat := (GetLengthPrefixedSlice entry).ToBytes

/-- The user key of a record. -/
def RecordUserKey (entry : List Nat) : List Nat := ExtractUserKey (RecordKey entry)

/-- The sequence number of a record, `tag >> 8`. -/
def RecordSequence (entry : List Nat) : Nat := ExtractTag (RecordKey entry) >>> 8

/-- Whether the arguments of a call fit the format can be computed. -/
instance AddCall.decidableInRange (c : AddCall) : Decidable c.InRange := by
  unfold AddCall.InRange; infer_instance

/-- The sum over all allocated blocks of block size plus `sizeof(char*)`. -/
def Arena.BlockTotal (sizeof_ptr : Nat) (a : Arena) : Nat :=
  (a.blocks_.map fun b => b.2 + sizeof_ptr).sum

/-- The accounting invariant of the arena: the usage counter is the block total. -/
def Arena.Accounted (sizeof_ptr : Nat) (a : Arena) : Prop :=
  a.MemoryUsage = a.BlockTotal sizeof_ptr

/-- The scenario of the spec: `Add(5, Value, "a", "v1")`, `Add(7, Value, "a", "v2")`,
`Add(9, Deletion, "a", "")`, each into zeroed memory. -/
def scenario : List AddCall :=
  [{ fresh := fun _ => 0, s := 5, type := .kTypeValue, key := [97], value := [118, 49] },
   { fresh := fun _ => 0, s := 7, type := .kTypeValue, key := [97], value := [118, 50] },
   { fresh := fun _ => 0, s := 9, type := .kTypeDeletion, key := [97], value := [] }]

/-- A list of records in non-decreasing order under a three-way comparison. -/
def Ordered (cmp : List Nat → List Nat → Ordering) (l : List (List Nat)) : Prop :=
  l.Pairwise fun a b => cmp a b ≠ .gt

/-- Modelled from the spec: `BytewiseComparator()` of `include/comparator.h`, with the proof
that byte order is a total preorder. -/
def BytewiseComparator : Comparator :=
  { Compare := BytewiseCompare
    total_order :=
      { symm := by
          intro a
          induction a with
          | nil => intro b; cases b <;> rfl
          | cons x xs ih =>
            intro b
            cases b with
            | nil => rfl
            | cons y ys =>
              simp only [BytewiseCompare]
              split_ifs <;> first | rfl | omega | exact ih ys
        le_trans := by
          intro a
          induction a with
          | nil => intro b c _ _; cases c <;> simp [BytewiseCompare]
          | cons x xs ih =>
            intro b c
            cases b with
            | nil => simp [BytewiseCompare]
            | cons y ys =>
              cases c with
              | nil => simp [BytewiseCompare]
              | cons z zs =>
                simp only [BytewiseCompare]
                intro h1 h2
                split_ifs at h1 h2 ⊢ <;>
                  first | omega | exact ih h1 h2 | simp at * } }

/-! ## Vocabulary for the arena -/

/-- The alignment `AllocateAligned` computes: `max(sizeof(void*), 8)`. -/
def Arena.Align (sizeof_ptr : Nat) : Nat := if sizeof_ptr > 8 then sizeof_ptr else 8

/-- The padding `slop` of `AllocateAligned` in a state. -/
def Arena.Slop (sizeof_ptr : Nat) (a : Arena) : Nat :=
  if a.alloc_ptr_ &&& (Arena.Align sizeof_ptr - 1) = 0 then 0
  else Arena.Align sizeof_ptr - (a.alloc_ptr_ &&& (Arena.Align sizeof_ptr - 1))

/-- The size a call asks for. -/
def ArenaCall.bytes : ArenaCall → Nat
  | .Allocate bytes _ => bytes
  | .AllocateAligned bytes _ => bytes

/-- The sum `bytes + slop` of an aligned request fits `size_t`; plain requests add nothing. -/
def Arena.NoOverflow (sizeof_ptr : Nat) (a : Arena) : ArenaCall → Prop
  | .Allocate _ _ => True
  | .AllocateAligned bytes _ => bytes + Arena.Slop sizeof_ptr a < 2 ^ (8 * sizeof_ptr)

/-- The bytes from `lo` up to `hi` lie inside one block of a list. -/
def InsideOne (blocks : List (Nat × Nat)) (lo hi : Nat) : Prop :=
  ∃ b ∈ blocks, b.1 ≤ lo ∧ hi ≤ b.1 + b.2

/-- The cursor invariant relative to the blocks `old`: the block list extends `old`, and
the bytes the cursor still owns, if any, lie inside one block allocated after `old`. -/
def Arena.CursorAfter (old : List (Nat × Nat)) (a : Arena) : Prop :=
  ∃ later, a.blocks_ = old ++ later ∧
    (a.alloc_bytes_remaining_ = 0 ∨
      InsideOne later a.alloc_ptr_ (a.alloc_ptr_ + a.alloc_bytes_remaining_))

/-- No two blocks the heap returned overlap. -/
def Arena.BlocksDisjoint (a : Arena) : Prop :=
  a.blocks_.Pairwise fun b c => b.1 + b.2 ≤ c.1 ∨ c.1 + c.2 ≤ b.1

/-- The byte at address `x` belongs to the part of the current block that has not been
handed out: it lies between the cursor and the end of the remaining capacity. -/
def Arena.Unused (a : Arena) (x : Nat) : Prop :=
  a.alloc_ptr_ ≤ x ∧ x < a.alloc_ptr_ + a.alloc_bytes_remaining_

/-! ## Lifetime of the table -/

/-- `MemTable::~MemTable`: `none` is the failed assertion `refs_ == 0`. -/
def MemTable.Destroy (m : MemTable) : Option Unit :=
  if m.refs_ = 0 then some () else none

/-- `MemTable::ApproximateMemoryUsage`: the usage counter of the table's arena; the arena
is kept beside the table in this embedding. -/
def MemTable.ApproximateMemoryUsage (_m : MemTable) (arena_ : Arena) : Nat :=
  arena_.MemoryUsage

/-- One call of `Add`, `Get`, `NewIterator` or `ApproximateMemoryUsage` on a table. -/
inductive MemTableCall where
  | Add (fresh : Nat → Nat) (s : Nat) (type : ValueType) (key value : List Nat)
  | Get (key : LookupKey) (value : List Nat) (s : Status)
  | NewIterator
  | ApproximateMemoryUsage (arena_ : Arena)

/-- The table after one call. `Get`, `NewIterator` and `ApproximateMemoryUsage` assign no
member of the table; `none` when the call does not return. -/
def MemTable.Call (m : MemTable) : MemTableCall → Option MemTable
  | .Add fresh s type key value => m.Add fresh s type key value
  | .Get key value s => (m.Get key value s).map fun _ => m
  | .NewIterator => (some m.NewIterator).map fun _ => m
  | .ApproximateMemoryUsage arena_ => (some (m.ApproximateMemoryUsage arena_)).map fun _ => m

/-! # Properties -/

/-! ## Coding helpers -/

theorem VarintLengthLoop_fuel : ∀ (n w len extra : Nat), w < 128 ^ (n + 1) →
    VarintLengthLoop (n + extra) w len = VarintLengthLoop n w len
  | 0, w, len, extra, h => by
    cases extra with
    | zero => rfl
    | succ e =>
      simp only [Nat.zero_add, VarintLengthLoop]
      rw [if_neg (by omega)]
  | n + 1, w, len, extra, h => by
    rw [show n + 1 + extra = (n + extra) + 1 by omega]
    simp only [VarintLengthLoop]
    split_ifs
    · refine VarintLengthLoop_fuel n (w / 128) (len + 1) extra ?_
      rw [Nat.div_lt_iff_lt_mul (by norm_num)]
      rw [Nat.pow_succ] at h
      exact h
    · rfl

/-- Nine steps are all the loop of `VarintLength` ever takes on a 64-bit value: with any
larger step budget the result is the same. -/
theorem VarintLength_fuel (v extra : Nat) :
    VarintLengthLoop (9 + extra) (v % 2 ^ 64) 1 = VarintLength v := by
  have hlt : v % 2 ^ 64 < 2 ^ 64 := Nat.mod_lt _ (by norm_num)
  exact VarintLengthLoop_fuel 9 _ 1 extra (Nat.lt_trans hlt (by norm_num))

theorem VarintLength_eq_length (v : Nat) (hv : v < 2 ^ 32) :
    VarintLength v = (Varint32Bytes v).length := by
  have h64 : v % 2 ^ 64 = v := Nat.mod_eq_of_lt (by omega)
  unfold VarintLength Varint32Bytes
  rw [h64]
  simp only [VarintLengthLoop]
  split_ifs <;> first | rfl | omega

theorem Fixed64Bytes_length (v : Nat) : (Fixed64Bytes v).length = 8 := rfl

theorem DecodeFixed64_Fixed64Bytes (v : Nat) (hv : v < 2 ^ 64) (rest : List Nat) :
    DecodeFixed64 (Fixed64Bytes v ++ rest) = v := by
  simp only [DecodeFixed64, Fixed64Bytes, List.cons_append, List.getD_cons_zero,
    List.getD_cons_succ]
  omega

theorem GetVarint32Ptr_Varint32Bytes (v : Nat) (hv : v < 2 ^ 32) (rest : List Nat) :
    GetVarint32Ptr (Varint32Bytes v ++ rest) 5 = some (v, rest) := by
  unfold GetVarint32Ptr Varint32Bytes
  norm_num at hv
  split_ifs with h1 h2 h3 h4 <;> norm_num at * <;>
    simp only [GetVarint32PtrLoop, List.cons_append, List.nil_append] <;>
    norm_num
  · rw [if_neg (show ¬ 128 ≤ v by omega)]; simp; omega
  · rw [if_neg (show ¬ 128 ≤ v / 128 by omega)]; simp; omega
  · rw [if_neg (show ¬ 128 ≤ v / 16384 by omega)]; simp; omega
  · rw [if_neg (show ¬ 128 ≤ v / 2097152 by omega)]; simp; omega
  · constructor <;> omega

theorem tag_lt (s : Nat) (type : ValueType) :
    ((s <<< 8) % 2 ^ 64) ||| type.code < 2 ^ 64 := by
  apply Nat.or_lt_two_pow
  · exact Nat.mod_lt _ (by norm_num)
  · cases type <;> simp [ValueType.code]

theorem tag_eq (s : Nat) (type : ValueType) (hs : s < 2 ^ 56) :
    ((s <<< 8) % 2 ^ 64) ||| type.code = s * 256 + type.code := by
  have hc : type.code < 2 ^ 8 := by cases type <;> simp [ValueType.code]
  rw [Nat.shiftLeft_eq, Nat.mod_eq_of_lt (by omega), Nat.mul_comm s,
    ← Nat.mul_add_lt_is_or hc]

theorem tag_shift (s : Nat) (type : ValueType) :
    (s * 256 + type.code) >>> 8 = s ∧ (s * 256 + type.code) &&& 0xff = type.code := by
  have hc : type.code < 256 := by cases type <;> simp [ValueType.code]
  constructor
  · rw [Nat.shiftRight_eq_div_pow]; omega
  · have := Nat.and_pow_two_sub_one_eq_mod (s * 256 + type.code) 8
    norm_num at this
    rw [this]; omega

/-! ## The record written by `Add` -/

theorem memcpy_append (pre junk src : List Nat) (h : src.length ≤ junk.length) :
    memcpy (pre ++ junk) pre.length src = some ((pre ++ src) ++ junk.drop src.length) := by
  unfold memcpy
  rw [if_pos (by simp; omega)]
  simp

theorem EncodeVarint32_append (pre junk : List Nat) (v : Nat)
    (h : (Varint32Bytes (v % 2 ^ 32)).length ≤ junk.length) :
    EncodeVarint32 (pre ++ junk) pre.length v =
      some ((pre ++ Varint32Bytes (v % 2 ^ 32)) ++ junk.drop (Varint32Bytes (v % 2 ^ 32)).length,
        (pre ++ Varint32Bytes (v % 2 ^ 32)).length) := by
  unfold EncodeVarint32
  rw [memcpy_append _ _ _ h]
  simp

theorem EncodeFixed64_append (pre junk : List Nat) (v : Nat) (h : 8 ≤ junk.length) :
    EncodeFixed64 (pre ++ junk) pre.length v =
      some ((pre ++ Fixed64Bytes (v % 2 ^ 64)) ++ junk.drop 8) := by
  unfold EncodeFixed64
  rw [memcpy_append _ _ _ (by simpa [Fixed64Bytes] using h)]
  rfl

theorem AddRecord_layout (fresh : Nat → Nat) (s : Nat) (type : ValueType) (key value : List Nat)
    (h1 : VarintLength (key.length + 8) = (Varint32Bytes ((key.length + 8) % 2 ^ 32)).length)
    (h2 : VarintLength value.length = (Varint32Bytes (value.length % 2 ^ 32)).length) :
    MemTable.AddRecord fresh s type key value =
      some (Varint32Bytes ((key.length + 8) % 2 ^ 32) ++ key ++
        Fixed64Bytes (((s <<< 8) % 2 ^ 64) ||| type.code) ++
        Varint32Bytes (value.length % 2 ^ 32) ++ value) := by
  unfold MemTable.AddRecord
  simp only [h1, h2]
  generalize hw1 : Varint32Bytes ((key.length + 8) % 2 ^ 32) = w1
  generalize hw2 : Varint32Bytes (value.length % 2 ^ 32) = w2
  generalize hL : w1.length + (key.length + 8) + w2.length + value.length = L
  generalize hJ : List.map fresh (List.range L) = J
  have hJl : J.length = L := by simp [← hJ]
  have e1 := EncodeVarint32_append [] J (key.length + 8) (by rw [hw1]; omega)
  simp only [List.nil_append, List.length_nil, hw1] at e1
  have e2 := memcpy_append w1 (J.drop w1.length) key (by simp; omega)
  have e3 := EncodeFixed64_append (w1 ++ key) ((J.drop w1.length).drop key.length)
    (((s <<< 8) % 2 ^ 64) ||| type.code) (by simp; omega)
  rw [Nat.mod_eq_of_lt (tag_lt s type)] at e3
  generalize hF : Fixed64Bytes (((s <<< 8) % 2 ^ 64) ||| type.code) = F at e3 ⊢
  have hFl : F.length = 8 := by rw [← hF]; rfl
  have e4 := EncodeVarint32_append (w1 ++ key ++ F)
    (((J.drop w1.length).drop key.length).drop 8) value.length (by rw [hw2]; simp; omega)
  simp only [hw2] at e4
  have e5 := memcpy_append (w1 ++ key ++ F ++ w2)
    ((((J.drop w1.length).drop key.length).drop 8).drop w2.length) value (by simp; omega)
  simp only [List.length_append, hFl] at e1 e2 e3 e4 e5
  simp only [e1, e2, e3, e4, e5, Option.bind_eq_bind, Option.some_bind, hFl, List.length_append]
  rw [if_pos (by omega)]
  simp only [List.drop_drop, Option.some.injEq]
  rw [List.drop_of_length_le (by omega)]
  simp

theorem AddRecord_eq (fresh : Nat → Nat) (s : Nat) (type : ValueType) (key value : List Nat)
    (hk : key.length + 8 < 2 ^ 32) (hv : value.length < 2 ^ 32) :
    MemTable.AddRecord fresh s type key value = some (RecordLayout s type key value) := by
  have := AddRecord_layout fresh s type key value
  rw [Nat.mod_eq_of_lt hk, Nat.mod_eq_of_lt hv] at this
  exact this (VarintLength_eq_length _ hk) (VarintLength_eq_length _ hv)

theorem RecordLayout_key_length (s : Nat) (type : ValueType) (key value : List Nat)
    (hk : key.length + 8 < 2 ^ 32) :
    GetVarint32Ptr (RecordLayout s type key value) 5 =
      some (key.length + 8, key ++ Fixed64Bytes (((s <<< 8) % 2 ^ 64) ||| type.code) ++
        Varint32Bytes value.length ++ value) := by
  unfold RecordLayout
  simp only [List.append_assoc]
  exact GetVarint32Ptr_Varint32Bytes _ hk _

theorem RecordLayout_internal_key (s : Nat) (type : ValueType) (key value : List Nat)
    (hk : key.length + 8 < 2 ^ 32) :
    (GetLengthPrefixedSlice (RecordLayout s type key value)).ToBytes =
      key ++ Fixed64Bytes (((s <<< 8) % 2 ^ 64) ||| type.code) := by
  unfold GetLengthPrefixedSlice
  rw [RecordLayout_key_length s type key value hk]
  simp only [Slice.ToBytes, List.append_assoc]
  rw [← List.append_assoc, List.take_left' (by simp [Fixed64Bytes_length])]

theorem ExtractUserKey_append (key : List Nat) (v : Nat) :
    ExtractUserKey (key ++ Fixed64Bytes v) = key := by
  unfold ExtractUserKey
  rw [List.take_left' (by simp [Fixed64Bytes_length])]

theorem ExtractTag_append (key : List Nat) (v : Nat) (hv : v < 2 ^ 64) :
    ExtractTag (key ++ Fixed64Bytes v) = v := by
  unfold ExtractTag
  rw [List.drop_left' (by simp [Fixed64Bytes_length])]
  simpa using DecodeFixed64_Fixed64Bytes v hv []

theorem LookupKey_internal_key (k : List Nat) (s : Nat) (hk : k.length + 8 < 2 ^ 32) :
    (GetLengthPrefixedSlice (LookupKey.new k s).memtable_key.data_).ToBytes =
      k ++ Fixed64Bytes (((s <<< 8) % 2 ^ 64) ||| kValueTypeForSeek.code) := by
  unfold GetLengthPrefixedSlice LookupKey.memtable_key LookupKey.new
  simp only [Nat.mod_eq_of_lt hk, List.append_assoc]
  rw [GetVarint32Ptr_Varint32Bytes _ hk]
  simp only [Slice.ToBytes]
  rw [List.take_of_length_le (by simp [Fixed64Bytes_length])]

theorem LookupKey_user_key (k : List Nat) (s : Nat) :
    (LookupKey.new k s).user_key.ToBytes = k := by
  unfold LookupKey.user_key LookupKey.new Slice.ToBytes
  simp only [List.append_assoc, List.drop_left, List.length_append, Fixed64Bytes_length]
  rw [List.take_left' (by omega)]

/-! ## Order -/

theorem InternalKeyComparator_transCmp (uc : Comparator) :
    Batteries.TransCmp (InternalKeyComparator.Compare uc) := by
  have huc := uc.total_order
  refine { symm := fun a b => ?_, le_trans := fun {a b c} h1 h2 => ?_ }
  · unfold InternalKeyComparator.Compare
    rw [← huc.symm (ExtractUserKey a) (ExtractUserKey b)]
    cases uc.Compare (ExtractUserKey a) (ExtractUserKey b) <;> simp only [Ordering.swap]
    split_ifs <;> first | rfl | omega
  · unfold InternalKeyComparator.Compare at *
    cases hab : uc.Compare (ExtractUserKey a) (ExtractUserKey b) <;> rw [hab] at h1
    · have hbc : uc.Compare (ExtractUserKey b) (ExtractUserKey c) ≠ .gt := by
        intro h; rw [h] at h2; exact h2 rfl
      rw [Batteries.TransCmp.lt_le_trans hab hbc]
      simp
    · rw [Batteries.TransCmp.cmp_congr_left hab]
      cases hbc : uc.Compare (ExtractUserKey b) (ExtractUserKey c) <;> rw [hbc] at h2 <;>
        simp only at h1 h2 ⊢
      · simp
      · split_ifs at h1 h2 ⊢ <;> first | omega | simp at *
      · exact h2
    · exact absurd rfl h1

theorem KeyComparator_transCmp (uc : Comparator) : Batteries.TransCmp (KeyComparator uc) :=
  have h := InternalKeyComparator_transCmp uc
  { symm := fun _ _ => h.symm _ _
    le_trans := fun h1 h2 => h.le_trans h1 h2 }

theorem Insert_splice (cmp : List Nat → List Nat → Ordering) (key : List Nat) :
    ∀ l : List (List Nat), ∃ pre post, l = pre ++ post ∧
      SkipList.Insert cmp l key = pre ++ key :: post ∧
      (∀ x ∈ pre, cmp x key = .lt) ∧ (∀ x, post.head? = some x → cmp x key ≠ .lt)
  | [] => ⟨[], [], rfl, rfl, by simp, by simp⟩
  | x :: rest => by
    unfold SkipList.Insert
    split_ifs with h
    · obtain ⟨pre, post, h1, h2, h3, h4⟩ := Insert_splice cmp key rest
      refine ⟨x :: pre, post, by rw [h1]; rfl, by rw [h2]; rfl, ?_, h4⟩
      intro y hy
      rcases List.mem_cons.mp hy with rfl | hy
      · exact h
      · exact h3 y hy
    · exact ⟨[], x :: rest, rfl, rfl, by simp, by simpa using h⟩

theorem Insert_perm (cmp : List Nat → List Nat → Ordering) (key : List Nat)
    (l : List (List Nat)) : (SkipList.Insert cmp l key).Perm (key :: l) := by
  obtain ⟨pre, post, h1, h2, -, -⟩ := Insert_splice cmp key l
  rw [h2, h1]
  exact List.perm_middle

theorem Insert_ordered (cmp : List Nat → List Nat → Ordering) [Batteries.TransCmp cmp] (key : List Nat) :
    ∀ l : List (List Nat), Ordered cmp l → Ordered cmp (SkipList.Insert cmp l key)
  | [], _ => by simp [SkipList.Insert, Ordered]
  | x :: rest, h => by
    unfold SkipList.Insert
    unfold Ordered at h ⊢
    rw [List.pairwise_cons] at h
    split_ifs with hx
    · rw [List.pairwise_cons]
      refine ⟨?_, Insert_ordered cmp key rest h.2⟩
      intro y hy
      rcases List.mem_cons.mp ((Insert_perm cmp key rest).mem_iff.mp hy) with rfl | hy
      · rw [hx]; decide
      · exact h.1 y hy
    · have hkx : cmp key x ≠ .gt := by
        rw [Ne, Batteries.OrientedCmp.cmp_eq_gt]; exact hx
      rw [List.pairwise_cons]
      refine ⟨?_, List.pairwise_cons.mpr h⟩
      intro y hy
      rcases List.mem_cons.mp hy with rfl | hy
      · exact hkx
      · exact Batteries.TransCmp.le_trans hkx (h.1 y hy)

theorem dropWhile_lt_nil (cmp : List Nat → List Nat → Ordering) (target : List Nat) :
    ∀ l : List (List Nat),
      (l.dropWhile fun x => decide (cmp x target = .lt)) = [] ↔ ∀ x ∈ l, cmp x target = .lt := by
  intro l
  simp [List.dropWhile_eq_nil_iff]

theorem dropWhile_lt_cons (cmp : List Nat → List Nat → Ordering) [Batteries.TransCmp cmp]
    (target : List Nat) :
    ∀ (l : List (List Nat)) (e : List Nat) (rest : List (List Nat)), Ordered cmp l →
      (l.dropWhile fun x => decide (cmp x target = .lt)) = e :: rest →
      e ∈ l ∧ cmp e target ≠ .lt ∧ ∀ x ∈ l, cmp x target ≠ .lt → cmp e x ≠ .gt
  | [], e, rest, _, h => by simp at h
  | y :: l, e, rest, ho, h => by
    unfold Ordered at ho
    rw [List.pairwise_cons] at ho
    rw [List.dropWhile_cons] at h
    split_ifs at h with hy
    · have hy' : cmp y target = .lt := by simpa using hy
      obtain ⟨h1, h2, h3⟩ := dropWhile_lt_cons cmp target l e rest ho.2 h
      refine ⟨List.mem_cons_of_mem _ h1, h2, ?_⟩
      intro x hx hxt
      rcases List.mem_cons.mp hx with rfl | hx
      · exact absurd hy' hxt
      · exact h3 x hx hxt
    · have hy' : cmp y target ≠ .lt := by simpa using hy
      injection h with h1 h2
      subst h1
      refine ⟨List.mem_cons_self _ _, hy', ?_⟩
      intro x hx _
      rcases List.mem_cons.mp hx with rfl | hx
      · rw [show cmp x x = .eq from Batteries.OrientedCmp.cmp_refl]; decide
      · exact ho.1 x hx

/-! ## Tables built by `Add`, and the seek of `Get` -/

theorem Add_eq (m : MemTable) (c : AddCall) (hc : c.InRange) :
    m.Add c.fresh c.s c.type c.key c.value =
      some { m with table_ := SkipList.Insert (KeyComparator m.comparator_) m.table_ c.Record } := by
  unfold MemTable.Add
  rw [AddRecord_eq c.fresh c.s c.type c.key c.value hc.1 hc.2.1]
  rfl

theorem AddAll_spec : ∀ (calls : List AddCall) (m : MemTable),
    (∀ c ∈ calls, c.InRange) →
    ∃ m1, m.AddAll calls = some m1 ∧ m1.comparator_ = m.comparator_ ∧ m1.refs_ = m.refs_ ∧
      m1.table_.Perm (calls.map AddCall.Record ++ m.table_) ∧
      (Ordered (KeyComparator m.comparator_) m.table_ →
        Ordered (KeyComparator m.comparator_) m1.table_)
  | [], m, _ => ⟨m, rfl, rfl, rfl, by simp, id⟩
  | c :: cs, m, h => by
    have hc := h c (List.mem_cons_self _ _)
    obtain ⟨m1, h1, h2, h3, h4, h5⟩ := AddAll_spec cs
      { m with table_ := SkipList.Insert (KeyComparator m.comparator_) m.table_ c.Record }
      (fun x hx => h x (List.mem_cons_of_mem _ hx))
    refine ⟨m1, ?_, h2, h3, ?_, ?_⟩
    · unfold MemTable.AddAll
      rw [Add_eq m c hc]
      exact h1
    · refine h4.trans ?_
      simp only [List.map_cons, List.cons_append]
      refine (List.Perm.append_left _ (Insert_perm _ _ _)).trans ?_
      exact List.perm_middle
    · intro ho
      have := KeyComparator_transCmp m.comparator_
      exact h5 (Insert_ordered _ _ _ ho)

theorem KeyComparator_record_lookup (uc : Comparator) (c : AddCall) (hc : c.InRange)
    (k : List Nat) (s : Nat) (hk : k.length + 8 < 2 ^ 32) (hs : s < 2 ^ 56) :
    KeyComparator uc c.Record (LookupKey.new k s).memtable_key.data_ =
      match uc.Compare c.key k with
      | .eq => if c.s * 256 + c.type.code > s * 256 + 1 then .lt
               else if c.s * 256 + c.type.code < s * 256 + 1 then .gt else .eq
      | r => r := by
  unfold KeyComparator AddCall.Record
  simp only []
  rw [RecordLayout_internal_key _ _ _ _ hc.1, LookupKey_internal_key k s hk]
  unfold InternalKeyComparator.Compare
  rw [ExtractUserKey_append, ExtractUserKey_append, ExtractTag_append _ _ (tag_lt _ _),
    ExtractTag_append _ _ (tag_lt _ _), tag_eq _ _ hc.2.2, tag_eq _ _ hs]
  rfl

theorem KeyComparator_record_record (uc : Comparator) (c d : AddCall) (hc : c.InRange)
    (hd : d.InRange) :
    KeyComparator uc c.Record d.Record =
      match uc.Compare c.key d.key with
      | .eq => if c.s * 256 + c.type.code > d.s * 256 + d.type.code then .lt
               else if c.s * 256 + c.type.code < d.s * 256 + d.type.code then .gt else .eq
      | r => r := by
  unfold KeyComparator AddCall.Record
  simp only []
  rw [RecordLayout_internal_key _ _ _ _ hc.1, RecordLayout_internal_key _ _ _ _ hd.1]
  unfold InternalKeyComparator.Compare
  rw [ExtractUserKey_append, ExtractUserKey_append, ExtractTag_append _ _ (tag_lt _ _),
    ExtractTag_append _ _ (tag_lt _ _), tag_eq _ _ hc.2.2, tag_eq _ _ hd.2.2]

theorem RecordLayout_value (s : Nat) (type : ValueType) (key value : List Nat)
    (hv : value.length < 2 ^ 32) :
    (GetLengthPrefixedSlice
      ((key ++ Fixed64Bytes (((s <<< 8) % 2 ^ 64) ||| type.code) ++
        Varint32Bytes value.length ++ value).drop (key.length + 8))).ToBytes = value := by
  rw [List.append_assoc, List.drop_left' (by simp [Fixed64Bytes_length])]
  unfold GetLengthPrefixedSlice
  rw [GetVarint32Ptr_Varint32Bytes _ hv]
  simp [Slice.ToBytes]

theorem Get_off_end (m : MemTable) (key : LookupKey) (value : List Nat) (st : Status)
    (h : (m.table_.dropWhile fun x =>
      decide (KeyComparator m.comparator_ x key.memtable_key.data_ = .lt)) = []) :
    m.Get key value st = some (false, value, st) := by
  unfold MemTable.Get
  simp [SkipList.Iterator.Seek, SkipList.Iterator.new, SkipList.Iterator.Valid, h]

theorem Get_landed (m : MemTable) (k : List Nat) (s : Nat) (value : List Nat) (st : Status)
    (c : AddCall) (hc : c.InRange) (rest : List (List Nat))
    (h : (m.table_.dropWhile fun x =>
      decide (KeyComparator m.comparator_ x (LookupKey.new k s).memtable_key.data_ = .lt)) =
        c.Record :: rest) :
    m.Get (LookupKey.new k s) value st =
      some (if m.comparator_.Compare c.key k = .eq then
        match c.type with
        | .kTypeValue => (true, c.value, st)
        | .kTypeDeletion => (true, value, Status.NotFound [])
      else (false, value, st)) := by
  unfold MemTable.Get
  simp only [SkipList.Iterator.Seek, SkipList.Iterator.new, SkipList.Iterator.Valid, h,
    SkipList.Iterator.key, List.headD_cons, List.isEmpty_cons, Bool.not_false, if_true]
  unfold AddCall.Record
  rw [RecordLayout_key_length _ _ _ _ hc.1]
  simp only
  rw [if_neg (by omega), LookupKey_user_key]
  have hk : Slice.ToBytes ⟨c.key ++ Fixed64Bytes (((c.s <<< 8) % 2 ^ 64) ||| c.type.code) ++
      Varint32Bytes c.value.length ++ c.value, c.key.length + 8 - 8⟩ = c.key := by
    simp only [Slice.ToBytes, Nat.add_sub_cancel, List.append_assoc]
    exact List.take_left' rfl
  rw [hk]
  have htag : DecodeFixed64 ((c.key ++ Fixed64Bytes (((c.s <<< 8) % 2 ^ 64) ||| c.type.code) ++
      Varint32Bytes c.value.length ++ c.value).drop (c.key.length + 8 - 8)) =
      c.s * 256 + c.type.code := by
    simp only [Nat.add_sub_cancel, List.append_assoc]
    rw [List.drop_left' rfl, DecodeFixed64_Fixed64Bytes _ (tag_lt _ _), tag_eq _ _ hc.2.2]
  rw [htag, (tag_shift c.s c.type).2, RecordLayout_value _ _ _ _ hc.2.1]
  by_cases hcmp : m.comparator_.Compare c.key k = .eq
  · rw [if_pos hcmp, if_pos hcmp]
    cases c.type <;> simp [ValueType.code]
  · rw [if_neg hcmp, if_neg hcmp]

theorem code_le_one (t : ValueType) : t.code ≤ 1 := by cases t <;> simp [ValueType.code]

/-- The table a list of in-range calls builds from the empty table. -/
theorem AddAll_new (uc : Comparator) (calls : List AddCall) (hr : ∀ c ∈ calls, c.InRange) :
    ∃ m, (MemTable.new uc).AddAll calls = some m ∧ m.comparator_ = uc ∧ m.refs_ = 0 ∧
      (∀ e, e ∈ m.table_ ↔ ∃ c ∈ calls, e = c.Record) ∧
      m.table_.Perm (calls.map AddCall.Record) ∧
      Ordered (KeyComparator uc) m.table_ := by
  obtain ⟨m, h1, h2, h3, h4, h5⟩ := AddAll_spec calls (MemTable.new uc) hr
  refine ⟨m, h1, h2, h3, ?_, by simpa [MemTable.new] using h4,
    h5 (by simp [MemTable.new, Ordered])⟩
  intro e
  rw [h4.mem_iff]
  simp only [MemTable.new, List.append_nil, List.mem_map]
  constructor
  · rintro ⟨c, hc, rfl⟩; exact ⟨c, hc, rfl⟩
  · rintro ⟨c, hc, rfl⟩; exact ⟨c, hc, rfl⟩

/-- Where the seek of `Get` lands when the table holds a record of the key at or below the
snapshot: on a record of the key with the greatest tag at or below the snapshot. -/
theorem Seek_lands (uc : Comparator) (calls : List AddCall) (hr : ∀ c ∈ calls, c.InRange)
    (m : MemTable) (hm : m.comparator_ = uc)
    (hmem : ∀ e, e ∈ m.table_ ↔ ∃ c ∈ calls, e = c.Record)
    (hord : Ordered (KeyComparator uc) m.table_)
    (k : List Nat) (s : Nat) (hk : k.length + 8 < 2 ^ 32) (hs : s < 2 ^ 56)
    (c : AddCall) (hc : c ∈ calls) (hck : uc.Compare c.key k = .eq) (hcs : c.s ≤ s) :
    ∃ d rest, d ∈ calls ∧
      (m.table_.dropWhile fun x =>
        decide (KeyComparator m.comparator_ x (LookupKey.new k s).memtable_key.data_ = .lt)) =
        d.Record :: rest ∧
      uc.Compare d.key k = .eq ∧ d.s ≤ s ∧
      ∀ c1 ∈ calls, uc.Compare c1.key k = .eq → c1.s ≤ s →
        c1.s * 256 + c1.type.code ≤ d.s * 256 + d.type.code := by
  have huc := uc.total_order
  have hkc := KeyComparator_transCmp uc
  subst hm
  -- every record of the key at or below the snapshot is at or after the target
  have hge : ∀ c1 ∈ calls, m.comparator_.Compare c1.key k = .eq → c1.s ≤ s →
      KeyComparator m.comparator_ c1.Record (LookupKey.new k s).memtable_key.data_ ≠ .lt := by
    intro c1 hc1 hk1 hs1
    rw [KeyComparator_record_lookup _ c1 (hr c1 hc1) k s hk hs, hk1]
    have := code_le_one c1.type
    simp only
    rw [if_neg (by omega)]
    split_ifs <;> simp
  cases hdw : (m.table_.dropWhile fun x =>
      decide (KeyComparator m.comparator_ x (LookupKey.new k s).memtable_key.data_ = .lt)) with
  | nil =>
    have := (dropWhile_lt_nil _ _ _).mp hdw c.Record ((hmem _).mpr ⟨c, hc, rfl⟩)
    exact absurd this (hge c hc hck hcs)
  | cons e rest =>
    obtain ⟨he, hlt, hfirst⟩ := dropWhile_lt_cons _ _ _ e rest hord hdw
    obtain ⟨d, hd, rfl⟩ := (hmem e).mp he
    have hdr := hr d hd
    -- the user key of the landed record
    have hdk : m.comparator_.Compare d.key k = .eq := by
      have h1 := hfirst c.Record ((hmem _).mpr ⟨c, hc, rfl⟩) (hge c hc hck hcs)
      rw [KeyComparator_record_record _ d c hdr (hr c hc),
        Batteries.TransCmp.cmp_congr_right hck] at h1
      rw [KeyComparator_record_lookup _ d hdr k s hk hs] at hlt
      cases h : m.comparator_.Compare d.key k
      · rw [h] at hlt; exact absurd rfl hlt
      · rfl
      · rw [h] at h1; exact absurd rfl h1
    have hds : d.s ≤ s := by
      rw [KeyComparator_record_lookup _ d hdr k s hk hs, hdk] at hlt
      have := code_le_one d.type
      simp only at hlt
      by_contra hcon
      rw [if_pos (by omega)] at hlt
      exact hlt rfl
    refine ⟨d, rest, hd, rfl, hdk, hds, ?_⟩
    intro c1 hc1 hk1 hs1
    have h1 := hfirst c1.Record ((hmem _).mpr ⟨c1, hc1, rfl⟩) (hge c1 hc1 hk1 hs1)
    have hdc : m.comparator_.Compare d.key c1.key = .eq := by
      rw [Batteries.TransCmp.cmp_congr_right hk1]; exact hdk
    rw [KeyComparator_record_record _ d c1 hdr (hr c1 hc1), hdc] at h1
    simp only at h1
    by_contra hcon
    rw [if_neg (by omega), if_pos (by omega)] at h1
    exact h1 rfl

/-! ## Decoding and scanning -/

theorem DecodeRecord_RecordLayout (s : Nat) (type : ValueType) (key value : List Nat)
    (hk : key.length + 8 < 2 ^ 32) (hv : value.length < 2 ^ 32) (hs : s < 2 ^ 56) :
    DecodeRecord (RecordLayout s type key value) = some (key, s, type.code, value) := by
  unfold DecodeRecord
  rw [RecordLayout_key_length _ _ _ _ hk]
  simp only
  rw [if_neg (by omega)]
  have hkey : Slice.ToBytes ⟨key ++ Fixed64Bytes (((s <<< 8) % 2 ^ 64) ||| type.code) ++
      Varint32Bytes value.length ++ value, key.length + 8 - 8⟩ = key := by
    simp only [Slice.ToBytes, Nat.add_sub_cancel, List.append_assoc]
    exact List.take_left' rfl
  have htag : DecodeFixed64 ((key ++ Fixed64Bytes (((s <<< 8) % 2 ^ 64) ||| type.code) ++
      Varint32Bytes value.length ++ value).drop (key.length + 8 - 8)) =
      s * 256 + type.code := by
    simp only [Nat.add_sub_cancel, List.append_assoc]
    rw [List.drop_left' rfl, DecodeFixed64_Fixed64Bytes _ (tag_lt _ _), tag_eq _ _ hs]
  have hc : type.code < 256 := by have := code_le_one type; omega
  rw [hkey, htag, (tag_shift s type).2, RecordLayout_value _ _ _ _ hv,
    Nat.shiftRight_eq_div_pow]
  congr 3
  omega

theorem RecordUserKey_Record (c : AddCall) (hc : c.InRange) :
    RecordUserKey c.Record = c.key := by
  unfold RecordUserKey RecordKey AddCall.Record
  rw [RecordLayout_internal_key _ _ _ _ hc.1, ExtractUserKey_append]

theorem RecordSequence_Record (c : AddCall) (hc : c.InRange) :
    RecordSequence c.Record = c.s := by
  unfold RecordSequence RecordKey AddCall.Record
  rw [RecordLayout_internal_key _ _ _ _ hc.1, ExtractTag_append _ _ (tag_lt _ _),
    tag_eq _ _ hc.2.2, Nat.shiftRight_eq_div_pow]
  have := code_le_one c.type
  omega

theorem Collect_eq : ∀ (n : Nat) (list node : List (List Nat)), node.length ≤ n →
    MemTableIterator.Collect n { iter_ := { list_ := list, node_ := node } } = node
  | 0, _, [], _ => rfl
  | n + 1, _, [], _ => by
    simp [MemTableIterator.Collect, MemTableIterator.Valid, SkipList.Iterator.Valid]
  | 0, _, _ :: _, h => by simp at h
  | n + 1, list, x :: rest, h => by
    have ih := Collect_eq n list rest (by simpa using h)
    simp only [MemTableIterator.Collect, MemTableIterator.Valid, SkipList.Iterator.Valid,
      List.isEmpty_cons, Bool.not_false, if_true, SkipList.Iterator.key, List.headD_cons,
      MemTableIterator.Next, SkipList.Iterator.Next, List.tail_cons, ih]

theorem Scan_eq (m : MemTable) : m.Scan = m.table_ := by
  unfold MemTable.Scan MemTable.NewIterator MemTableIterator.SeekToFirst
    SkipList.Iterator.SeekToFirst SkipList.Iterator.new
  exact Collect_eq _ _ _ (Nat.le_refl _)

/-! ## Iterator accessors -/

theorem consecutive_of_pairwise {α : Type} (R : α → α → Prop) {l pre post : List α} {a b : α}
    (h : l.Pairwise R) (hl : l = pre ++ a :: b :: post) : R a b := by
  subst hl
  have h1 := (List.pairwise_append.mp h).2.1
  exact (List.pairwise_cons.mp h1).1 b (List.mem_cons_self _ _)

theorem key_of_record (it : MemTableIterator) (s : Nat) (type : ValueType)
    (key value : List Nat) (hk : key.length + 8 < 2 ^ 32)
    (h : it.iter_.key = RecordLayout s type key value) :
    it.key.ToBytes = key ++ Fixed64Bytes (((s <<< 8) % 2 ^ 64) ||| type.code) := by
  unfold MemTableIterator.key
  rw [h, RecordLayout_internal_key _ _ _ _ hk]

theorem value_of_record (it : MemTableIterator) (s : Nat) (type : ValueType)
    (key value : List Nat) (hk : key.length + 8 < 2 ^ 32) (hv : value.length < 2 ^ 32)
    (h : it.iter_.key = RecordLayout s type key value) :
    it.value.ToBytes = value := by
  unfold MemTableIterator.value
  rw [h]
  simp only [GetLengthPrefixedSlice, RecordLayout_key_length _ _ _ _ hk]
  exact RecordLayout_value _ _ _ _ hv

theorem Add_mem_Scan (m : MemTable) (fresh : Nat → Nat) (s : Nat) (type : ValueType)
    (key value : List Nat) (hk : key.length + 8 < 2 ^ 32) (hv : value.length < 2 ^ 32) :
    ∃ m1, m.Add fresh s type key value = some m1 ∧
      MemTable.AddRecord fresh s type key value = some (RecordLayout s type key value) ∧
      RecordLayout s type key value ∈ m1.Scan := by
  have hrec := AddRecord_eq fresh s type key value hk hv
  refine ⟨_, by unfold MemTable.Add; rw [hrec]; rfl, hrec, ?_⟩
  rw [Scan_eq]
  exact (Insert_perm _ _ _).mem_iff.mpr (List.mem_cons_self _ _)

/-- The value accessor on a record whose value is longer than a 32-bit length can say. -/
theorem value_truncated (V : List Nat) (hV : V.length = 2 ^ 32 + 2 ^ 28) :
    ∃ m1 buf, (MemTable.new BytewiseComparator).Add (fun _ => 0) 0 .kTypeValue [] V = some m1 ∧
      m1.Scan = [buf] ∧ m1.NewIterator.SeekToFirst.iter_.key = buf ∧
      m1.NewIterator.SeekToFirst.value.ToBytes.length = 2 ^ 28 := by
  have hrec := AddRecord_layout (fun _ => 0) 0 .kTypeValue [] V (by decide)
    (by rw [hV]; decide)
  rw [hV] at hrec
  have e1 : (([] : List Nat).length + 8) % 2 ^ 32 = 8 := by decide
  have e2 : (2 ^ 32 + 2 ^ 28) % 2 ^ 32 = 2 ^ 28 := by decide
  rw [e1, e2] at hrec
  refine ⟨_, _, by unfold MemTable.Add; rw [hrec]; rfl, ?_, rfl, ?_⟩
  · rw [Scan_eq]; rfl
  · simp only [MemTable.NewIterator, MemTableIterator.SeekToFirst,
      SkipList.Iterator.SeekToFirst, SkipList.Iterator.new, MemTable.new, SkipList.Insert,
      MemTableIterator.value, SkipList.Iterator.key, List.headD_cons, GetLengthPrefixedSlice,
      List.append_assoc, List.nil_append]
    rw [GetVarint32Ptr_Varint32Bytes 8 (by decide)]
    simp only
    rw [List.drop_left' (Fixed64Bytes_length _), GetVarint32Ptr_Varint32Bytes _ (by decide)]
    simp only [Slice.ToBytes, List.length_take, hV]
    decide

theorem value_size_of_record (it : MemTableIterator) (s : Nat) (type : ValueType)
    (key value : List Nat) (hk : key.length + 8 < 2 ^ 32) (hv : value.length < 2 ^ 32)
    (h : it.iter_.key = RecordLayout s type key value) :
    it.value.size_ = value.length := by
  unfold MemTableIterator.value
  rw [h]
  simp only [GetLengthPrefixedSlice, RecordLayout_key_length _ _ _ _ hk]
  rw [List.append_assoc, List.drop_left' (by simp [Fixed64Bytes_length]),
    GetVarint32Ptr_Varint32Bytes _ hv]

/-! ## Arena accounting -/

theorem AllocateNewBlock_accounted (P : Nat) (a : Arena) (n heap : Nat)
    (h : a.Accounted P) :
    (Arena.AllocateNewBlock P a n heap).2.Accounted P ∧
      (Arena.AllocateNewBlock P a n heap).2.MemoryUsage = a.MemoryUsage + (n + P) := by
  unfold Arena.Accounted Arena.BlockTotal Arena.MemoryUsage at *
  simp [Arena.AllocateNewBlock, h]

theorem AllocateFallback_accounted (P : Nat) (a : Arena) (n heap : Nat)
    (h : a.Accounted P) :
    (Arena.AllocateFallback P a n heap).2.Accounted P ∧
      a.MemoryUsage ≤ (Arena.AllocateFallback P a n heap).2.MemoryUsage := by
  unfold Arena.AllocateFallback
  split_ifs
  · have := AllocateNewBlock_accounted P a n heap h
    exact ⟨this.1, by rw [this.2]; omega⟩
  · have := AllocateNewBlock_accounted P a kBlockSize heap h
    unfold Arena.Accounted Arena.BlockTotal Arena.MemoryUsage at *
    simp only [Arena.AllocateNewBlock] at this ⊢
    exact ⟨this.1, by omega⟩

theorem Call_accounted (P : Nat) (a : Arena) (c : ArenaCall) (r : Nat × Arena)
    (h : a.Accounted P) (hc : Arena.Call P a c = some r) :
    r.2.Accounted P ∧ a.MemoryUsage ≤ r.2.MemoryUsage := by
  cases c with
  | Allocate bytes heap =>
    simp only [Arena.Call, Arena.Allocate] at hc
    split_ifs at hc with h1 h2
    · simp only [Option.some.injEq] at hc
      subst hc
      exact ⟨h, Nat.le_refl _⟩
    · simp only [Option.some.injEq] at hc
      subst hc
      exact AllocateFallback_accounted P a bytes heap h
  | AllocateAligned bytes heap =>
    simp only [Arena.Call, Arena.AllocateAligned] at hc
    split_ifs at hc with h1 h2 h3 h4 <;> simp only [Option.some.injEq] at hc <;> subst hc
    all_goals first
      | exact ⟨h, Nat.le_refl _⟩
      | exact AllocateFallback_accounted P a bytes heap h

theorem Run_accounted (P : Nat) : ∀ (calls : List ArenaCall) (a b : Arena),
    a.Accounted P → Arena.Run P a calls = some b →
    b.Accounted P ∧ a.MemoryUsage ≤ b.MemoryUsage
  | [], a, b, h, hr => by
    simp only [Arena.Run, Option.some.injEq] at hr
    subst hr
    exact ⟨h, Nat.le_refl _⟩
  | c :: cs, a, b, h, hr => by
    simp only [Arena.Run] at hr
    cases hc : Arena.Call P a c with
    | none => rw [hc] at hr; simp at hr
    | some r =>
      rw [hc] at hr
      simp only [Option.some_bind] at hr
      have h1 := Call_accounted P a c r h hc
      have h2 := Run_accounted P cs r.2 b h1.1 hr
      exact ⟨h2.1, Nat.le_trans h1.2 h2.2⟩

/-! ## Arena cursor and alignment -/

theorem AllocateAligned_eq (P : Nat) (a : Arena) (bytes heap : Nat) :
    Arena.AllocateAligned P a bytes heap =
      if (bytes + Arena.Slop P a) % 2 ^ (8 * P) ≤ a.alloc_bytes_remaining_ then
        if (a.alloc_ptr_ + Arena.Slop P a) &&& (Arena.Align P - 1) = 0 then
          some (a.alloc_ptr_ + Arena.Slop P a, { a with
            alloc_ptr_ := a.alloc_ptr_ + (bytes + Arena.Slop P a) % 2 ^ (8 * P)
            alloc_bytes_remaining_ :=
              a.alloc_bytes_remaining_ - (bytes + Arena.Slop P a) % 2 ^ (8 * P) })
        else none
      else
        if (Arena.AllocateFallback P a bytes heap).1 &&& (Arena.Align P - 1) = 0 then
          some (Arena.AllocateFallback P a bytes heap)
        else none := by
  unfold Arena.AllocateAligned Arena.Slop Arena.Align
  simp only
  split_ifs <;> rfl

theorem AllocateFallback_fst (P : Nat) (a : Arena) (bytes heap : Nat) :
    (Arena.AllocateFallback P a bytes heap).1 = heap := by
  unfold Arena.AllocateFallback Arena.AllocateNewBlock
  split_ifs <;> rfl

theorem and_mask_eq_mod (x k : Nat) : x &&& (2 ^ k - 1) = x % 2 ^ k :=
  Nat.and_pow_two_sub_one_eq_mod x k

theorem Slop_aligned (P k : Nat) (hpow : Arena.Align P = 2 ^ k) (a : Arena) :
    (a.alloc_ptr_ + Arena.Slop P a) &&& (Arena.Align P - 1) = 0 := by
  unfold Arena.Slop
  rw [hpow, and_mask_eq_mod, and_mask_eq_mod]
  have hpos : 0 < 2 ^ k := Nat.two_pow_pos k
  split_ifs with h
  · simpa using h
  · have hlt := Nat.mod_lt a.alloc_ptr_ hpos
    have hdm := Nat.div_add_mod a.alloc_ptr_ (2 ^ k)
    have : a.alloc_ptr_ + (2 ^ k - a.alloc_ptr_ % 2 ^ k) =
        2 ^ k * (a.alloc_ptr_ / 2 ^ k) + 2 ^ k := by
      generalize 2 ^ k * (a.alloc_ptr_ / 2 ^ k) = q at hdm ⊢
      generalize a.alloc_ptr_ % 2 ^ k = m at hdm hlt ⊢
      generalize 2 ^ k = A at hlt ⊢
      omega
    rw [this, Nat.add_mod_right, Nat.mul_mod_right]

theorem AllocateAligned_aligned (P k : Nat) (hpow : Arena.Align P = 2 ^ k) (a : Arena)
    (bytes heap : Nat) (hheap : heap % Arena.Align P = 0) :
    ∃ r, Arena.AllocateAligned P a bytes heap = some r ∧ r.1 % Arena.Align P = 0 := by
  have hfast := Slop_aligned P k hpow a
  have hslow : (Arena.AllocateFallback P a bytes heap).1 &&& (Arena.Align P - 1) = 0 := by
    rw [AllocateFallback_fst, hpow, and_mask_eq_mod, ← hpow]
    exact hheap
  rw [AllocateAligned_eq]
  split_ifs
  · refine ⟨_, rfl, ?_⟩
    rw [hpow, and_mask_eq_mod, ← hpow] at hfast
    exact hfast
  · refine ⟨_, rfl, ?_⟩
    rw [AllocateFallback_fst]
    exact hheap

theorem AllocateFallback_big (P : Nat) (a : Arena) (bytes heap : Nat) (h : 1024 < bytes) :
    Arena.AllocateFallback P a bytes heap =
      (heap, { a with blocks_ := a.blocks_ ++ [(heap, bytes)]
                      memory_usage_ := a.memory_usage_ + (bytes + P) }) := by
  unfold Arena.AllocateFallback Arena.AllocateNewBlock
  rw [if_pos (by simpa [kBlockSize] using h)]

theorem AllocateFallback_small (P : Nat) (a : Arena) (bytes heap : Nat) (h : bytes ≤ 1024) :
    Arena.AllocateFallback P a bytes heap =
      (heap, { alloc_ptr_ := heap + bytes
               alloc_bytes_remaining_ := 4096 - bytes
               blocks_ := a.blocks_ ++ [(heap, 4096)]
               memory_usage_ := a.memory_usage_ + (4096 + P) }) := by
  unfold Arena.AllocateFallback Arena.AllocateNewBlock
  rw [if_neg (by simp [kBlockSize]; omega)]
  rfl

theorem InsideOne_append (l extra : List (Nat × Nat)) (lo hi : Nat)
    (h : InsideOne l lo hi) : InsideOne (l ++ extra) lo hi := by
  obtain ⟨b, hb, h1, h2⟩ := h
  exact ⟨b, List.mem_append_left _ hb, h1, h2⟩

theorem InsideOne_shrink (l : List (Nat × Nat)) (lo hi lo1 hi1 : Nat)
    (h : InsideOne l lo hi) (h1 : lo ≤ lo1) (h2 : hi1 ≤ hi) : InsideOne l lo1 hi1 := by
  obtain ⟨b, hb, h3, h4⟩ := h
  exact ⟨b, hb, Nat.le_trans h3 h1, Nat.le_trans h2 h4⟩

theorem AllocateFallback_CursorAfter (P : Nat) (old : List (Nat × Nat)) (a : Arena)
    (bytes heap : Nat) (h : a.CursorAfter old) :
    (Arena.AllocateFallback P a bytes heap).2.CursorAfter old ∧
      ∃ later, (Arena.AllocateFallback P a bytes heap).2.blocks_ = old ++ later ∧
        InsideOne later heap (heap + bytes) := by
  obtain ⟨later, hl, hc⟩ := h
  by_cases hb : 1024 < bytes
  · rw [AllocateFallback_big P a bytes heap hb]
    refine ⟨⟨later ++ [(heap, bytes)], by simp [hl], ?_⟩,
      ⟨later ++ [(heap, bytes)], by simp [hl], (heap, bytes), by simp, Nat.le_refl _,
        Nat.le_refl _⟩⟩
    rcases hc with hc | hc
    · exact Or.inl hc
    · exact Or.inr (InsideOne_append _ _ _ _ hc)
  · rw [AllocateFallback_small P a bytes heap (by omega)]
    refine ⟨⟨later ++ [(heap, 4096)], by simp [hl], Or.inr ?_⟩,
      ⟨later ++ [(heap, 4096)], by simp [hl], (heap, 4096), by simp, Nat.le_refl _, ?_⟩⟩
    · exact ⟨(heap, 4096), by simp, by simp, by simp; omega⟩
    · simp; omega

theorem Call_CursorAfter (P : Nat) (old : List (Nat × Nat)) (a : Arena) (c : ArenaCall)
    (r : Nat × Arena) (h : a.CursorAfter old) (hc : Arena.Call P a c = some r) :
    r.2.CursorAfter old ∧
      (0 < c.bytes → Arena.NoOverflow P a c →
        ∃ later, r.2.blocks_ = old ++ later ∧ InsideOne later r.1 (r.1 + c.bytes)) := by
  have hfb := fun bytes heap => AllocateFallback_CursorAfter P old a bytes heap h
  cases c with
  | Allocate bytes heap =>
    simp only [Arena.Call, Arena.Allocate] at hc
    split_ifs at hc with h1 h2
    · simp only [Option.some.injEq] at hc
      subst hc
      obtain ⟨later, hl, hcur⟩ := h
      have hin : InsideOne later a.alloc_ptr_ (a.alloc_ptr_ + a.alloc_bytes_remaining_) := by
        rcases hcur with h0 | hin
        · omega
        · exact hin
      refine ⟨⟨later, hl, Or.inr ?_⟩, fun _ _ => ⟨later, hl, ?_⟩⟩
      · exact InsideOne_shrink _ _ _ _ _ hin (by simp) (by simp; omega)
      · exact InsideOne_shrink _ _ _ _ _ hin (Nat.le_refl _) (by simp [ArenaCall.bytes]; omega)
    · simp only [Option.some.injEq] at hc
      subst hc
      have := hfb bytes heap
      rw [AllocateFallback_fst] 
      exact ⟨this.1, fun _ _ => this.2⟩
  | AllocateAligned bytes heap =>
    simp only [Arena.Call] at hc
    rw [AllocateAligned_eq] at hc
    split_ifs at hc with h1 h2 h3
    · simp only [Option.some.injEq] at hc
      subst hc
      obtain ⟨later, hl, hcur⟩ := h
      refine ⟨⟨later, hl, ?_⟩, fun hpos hno => ⟨later, hl, ?_⟩⟩
      · rcases hcur with h0 | hin
        · left; simp; omega
        · right
          exact InsideOne_shrink _ _ _ _ _ hin (by simp) (by simp; omega)
      · simp only [Arena.NoOverflow] at hno
        simp only [ArenaCall.bytes] at hpos ⊢
        rw [Nat.mod_eq_of_lt hno] at h1
        have hin : InsideOne later a.alloc_ptr_ (a.alloc_ptr_ + a.alloc_bytes_remaining_) := by
          rcases hcur with h0 | hin
          · omega
          · exact hin
        exact InsideOne_shrink _ _ _ _ _ hin (by omega) (by omega)
    · simp only [Option.some.injEq] at hc
      subst hc
      have := hfb bytes heap
      rw [AllocateFallback_fst]
      exact ⟨this.1, fun _ _ => this.2⟩

theorem Run_CursorAfter (P : Nat) (old : List (Nat × Nat)) :
    ∀ (calls : List ArenaCall) (a b : Arena), a.CursorAfter old →
      Arena.Run P a calls = some b → b.CursorAfter old
  | [], a, b, h, hr => by
    simp only [Arena.Run, Option.some.injEq] at hr
    subst hr
    exact h
  | c :: cs, a, b, h, hr => by
    simp only [Arena.Run] at hr
    cases hc : Arena.Call P a c with
    | none => rw [hc] at hr; simp at hr
    | some r =>
      rw [hc] at hr
      simp only [Option.some_bind] at hr
      exact Run_CursorAfter P old cs r.2 b (Call_CursorAfter P old a c r h hc).1 hr

theorem new_CursorAfter : Arena.new.CursorAfter [] := ⟨[], rfl, Or.inl rfl⟩

theorem Unused_outside_later (a : Arena) (hcur : a.CursorAfter [])
    (blocks later : List (Nat × Nat)) (hl : blocks = a.blocks_ ++ later)
    (hdis : blocks.Pairwise fun b c => b.1 + b.2 ≤ c.1 ∨ c.1 + c.2 ≤ b.1)
    (x : Nat) (hx : a.Unused x) :
    ∀ y ∈ later, ¬(y.1 ≤ x ∧ x < y.1 + y.2) := by
  intro y hy hin
  obtain ⟨l0, hl0, hc⟩ := hcur
  simp only [List.nil_append] at hl0
  unfold Arena.Unused at hx
  rcases hc with h0 | ⟨b0, hb0, h1, h2⟩
  · omega
  · rw [hl] at hdis
    have := (List.pairwise_append.mp hdis).2.2 b0 (by rw [hl0]; exact hb0) y hy
    omega

/-- The slow path of a small request, apart from requests that wrap: in a state reached
from a fresh arena, when `0 < n <= 1024` and `n` exceeds the remaining capacity,
`Allocate(n)` allocates one new block of exactly 4096 bytes, `MemoryUsage()` grows by
`4096 + sizeof(char*)`, the call returns the start of the new block and leaves the cursor at
offset `n` of it with `4096 - n` bytes remaining. After any later calls, provided the heap
never returned overlapping blocks, no byte of the old tail belongs to the cursor's
remaining capacity or to a block allocated since, nor to the span a later call returns
when, for an aligned request, `bytes + slop` fits `size_t`. -/
theorem small_slow_path_without_wrap (sizeof_ptr : Nat) (before : List ArenaCall) (a : Arena)
    (hreach : Arena.Run sizeof_ptr Arena.new before = some a) (n heap : Nat)
    (hn : 0 < n) (hle : n ≤ 1024) (hrem : a.alloc_bytes_remaining_ < n) :
    ∃ a1, Arena.Allocate sizeof_ptr a n heap = some (heap, a1) ∧
      a1.blocks_ = a.blocks_ ++ [(heap, 4096)] ∧
      a1.MemoryUsage = a.MemoryUsage + (4096 + sizeof_ptr) ∧
      a1.alloc_ptr_ = heap + n ∧ a1.alloc_bytes_remaining_ = 4096 - n ∧
      ∀ calls b, Arena.Run sizeof_ptr a1 calls = some b →
        (b.BlocksDisjoint → ∀ x, a.Unused x →
          ¬b.Unused x ∧
          ∀ blk ∈ b.blocks_.drop a.blocks_.length, ¬(blk.1 ≤ x ∧ x < blk.1 + blk.2)) ∧
        (∀ c r, Arena.Call sizeof_ptr b c = some r → r.2.BlocksDisjoint → 0 < c.bytes →
          Arena.NoOverflow sizeof_ptr b c →
          ∀ x, a.Unused x → ¬(r.1 ≤ x ∧ x < r.1 + c.bytes)) := by
  have hcur := Run_CursorAfter sizeof_ptr [] before Arena.new a new_CursorAfter hreach
  have hcall : Arena.Allocate sizeof_ptr a n heap =
      some (heap, ⟨heap + n, 4096 - n, a.blocks_ ++ [(heap, 4096)],
        a.memory_usage_ + (4096 + sizeof_ptr)⟩) := by
    unfold Arena.Allocate
    rw [if_pos hn, if_neg (by omega), AllocateFallback_small _ _ _ _ hle]
  refine ⟨_, hcall, rfl, rfl, rfl, rfl, fun calls b hrun => ?_⟩
  have h1 : Arena.CursorAfter a.blocks_ ⟨heap + n, 4096 - n, a.blocks_ ++ [(heap, 4096)],
      a.memory_usage_ + (4096 + sizeof_ptr)⟩ :=
    ⟨[(heap, 4096)], rfl, Or.inr ⟨(heap, 4096), by simp, by simp, by simp; omega⟩⟩
  have hb := Run_CursorAfter sizeof_ptr a.blocks_ calls _ b h1 hrun
  constructor
  · intro hdis x hx
    obtain ⟨later, hl, hc⟩ := hb
    have hout := Unused_outside_later a hcur b.blocks_ later hl hdis x hx
    refine ⟨fun hbx => ?_, fun blk hblk => ?_⟩
    · rcases hc with h0 | ⟨y, hy, hy1, hy2⟩
      · unfold Arena.Unused at hbx; omega
      · exact hout y hy ⟨by unfold Arena.Unused at hbx; omega,
          by unfold Arena.Unused at hbx; omega⟩
    · rw [hl, List.drop_left] at hblk
      exact hout blk hblk
  · intro c r hc hdis hpos hno x hx hspan
    obtain ⟨later, hl, y, hy, hy1, hy2⟩ :=
      (Call_CursorAfter sizeof_ptr a.blocks_ b c r hb hc).2 hpos hno
    exact Unused_outside_later a hcur r.2.blocks_ later hl hdis x hx y hy
      ⟨by omega, by omega⟩

/-! ## Arena over a heap that can refuse -/

theorem Throwing_AllocateFallback_some (P : Nat) (a : Arena) (bytes heap : Nat) :
    Throwing.AllocateFallback P a bytes (some heap) =
      .ok (Arena.AllocateFallback P a bytes heap) := by
  unfold Throwing.AllocateFallback Arena.AllocateFallback Throwing.AllocateNewBlock
    Arena.AllocateNewBlock
  split_ifs <;> rfl

theorem Throwing_AllocateFallback_none (P : Nat) (a : Arena) (bytes : Nat) :
    Throwing.AllocateFallback P a bytes none = .error a := by
  unfold Throwing.AllocateFallback Throwing.AllocateNewBlock
  split_ifs <;> rfl

theorem Throwing_Allocate_some (P : Nat) (a : Arena) (bytes heap : Nat) :
    Throwing.Allocate P a bytes (some heap) =
      match Arena.Allocate P a bytes heap with
      | some r => .returned r.1 r.2
      | none => .assertion a := by
  unfold Throwing.Allocate Arena.Allocate
  rw [Throwing_AllocateFallback_some]
  split_ifs <;> rfl

theorem Throwing_Allocate_none (P : Nat) (a : Arena) (bytes : Nat) :
    Throwing.Allocate P a bytes none =
      if bytes > 0 then
        if bytes ≤ a.alloc_bytes_remaining_ then
          match Arena.Allocate P a bytes 0 with
          | some r => .returned r.1 r.2
          | none => .assertion a
        else .bad_alloc a
      else .assertion a := by
  unfold Throwing.Allocate Arena.Allocate
  rw [Throwing_AllocateFallback_none]
  split_ifs <;> rfl


theorem Throwing_AllocateAligned_eq (P : Nat) (a : Arena) (bytes : Nat) (heap : Option Nat) :
    Throwing.AllocateAligned P a bytes heap =
      if (bytes + Arena.Slop P a) % 2 ^ (8 * P) ≤ a.alloc_bytes_remaining_ then
        if (a.alloc_ptr_ + Arena.Slop P a) &&& (Arena.Align P - 1) = 0 then
          .returned (a.alloc_ptr_ + Arena.Slop P a) { a with
            alloc_ptr_ := a.alloc_ptr_ + (bytes + Arena.Slop P a) % 2 ^ (8 * P)
            alloc_bytes_remaining_ :=
              a.alloc_bytes_remaining_ - (bytes + Arena.Slop P a) % 2 ^ (8 * P) }
        else
          .assertion { a with
            alloc_ptr_ := a.alloc_ptr_ + (bytes + Arena.Slop P a) % 2 ^ (8 * P)
            alloc_bytes_remaining_ :=
              a.alloc_bytes_remaining_ - (bytes + Arena.Slop P a) % 2 ^ (8 * P) }
      else
        match heap with
        | none => .bad_alloc a
        | some heap =>
          if (Arena.AllocateFallback P a bytes heap).1 &&& (Arena.Align P - 1) = 0 then
            .returned (Arena.AllocateFallback P a bytes heap).1
              (Arena.AllocateFallback P a bytes heap).2
          else .assertion (Arena.AllocateFallback P a bytes heap).2 := by
  unfold Throwing.AllocateAligned Arena.Slop Arena.Align
  cases heap with
  | none =>
    simp only [Throwing_AllocateFallback_none]
    split_ifs <;> simp_all
  | some heap =>
    simp only [Throwing_AllocateFallback_some]
    split_ifs <;> simp_all

theorem Throwing_Call_bad_alloc (P : Nat) (a : Arena) (c : Throwing.ArenaCall) (b : Arena)
    (h : Throwing.Call P a c = .bad_alloc b) : b = a := by
  cases c with
  | Allocate bytes heap =>
    cases heap with
    | none =>
      simp only [Throwing.Call, Throwing_Allocate_none, Arena.Allocate] at h
      split_ifs at h
      simp only [ArenaOutcome.bad_alloc.injEq] at h
      exact h.symm
    | some heap =>
      simp only [Throwing.Call, Throwing_Allocate_some, Arena.Allocate] at h
      split_ifs at h
  | AllocateAligned bytes heap =>
    simp only [Throwing.Call, Throwing_AllocateAligned_eq] at h
    cases heap with
    | none =>
      split_ifs at h
      simp only [ArenaOutcome.bad_alloc.injEq] at h
      exact h.symm
    | some heap =>
      simp only at h
      split_ifs at h

theorem Throwing_Call_returned (P : Nat) (a : Arena) (c : Throwing.ArenaCall) (p : Nat)
    (b : Arena) (h : Throwing.Call P a c = .returned p b) :
    ∃ c1, Arena.Call P a c1 = some (p, b) := by
  cases c with
  | Allocate bytes heap =>
    cases heap with
    | none =>
      refine ⟨.Allocate bytes 0, ?_⟩
      simp only [Throwing.Call, Throwing_Allocate_none] at h
      simp only [Arena.Call]
      split_ifs at h
      cases hc : Arena.Allocate P a bytes 0 with
      | none => rw [hc] at h; simp at h
      | some r =>
        rw [hc] at h
        simp only [ArenaOutcome.returned.injEq] at h
        rw [← h.1, ← h.2]
    | some heap =>
      refine ⟨.Allocate bytes heap, ?_⟩
      simp only [Throwing.Call, Throwing_Allocate_some] at h
      simp only [Arena.Call]
      cases hc : Arena.Allocate P a bytes heap with
      | none => rw [hc] at h; simp at h
      | some r =>
        rw [hc] at h
        simp only [ArenaOutcome.returned.injEq] at h
        rw [← h.1, ← h.2]
  | AllocateAligned bytes heap =>
    simp only [Throwing.Call, Throwing_AllocateAligned_eq] at h
    cases heap with
    | none =>
      refine ⟨.AllocateAligned bytes 0, ?_⟩
      simp only [Arena.Call, AllocateAligned_eq]
      split_ifs at h ⊢
      simp only [ArenaOutcome.returned.injEq] at h
      rw [← h.1, ← h.2]
    | some heap =>
      refine ⟨.AllocateAligned bytes heap, ?_⟩
      simp only at h
      simp only [Arena.Call, AllocateAligned_eq]
      split_ifs at h ⊢ <;> simp only [ArenaOutcome.returned.injEq] at h <;>
        rw [← h.1, ← h.2]

theorem Throwing_Run_reach (P : Nat) : ∀ (calls : List Throwing.ArenaCall) (a b : Arena),
    Throwing.Run P a calls = some b → ∃ calls1, Arena.Run P a calls1 = some b
  | [], a, b, h => by
    simp only [Throwing.Run, Option.some.injEq] at h
    exact ⟨[], by rw [← h]; rfl⟩
  | c :: cs, a, b, h => by
    simp only [Throwing.Run] at h
    cases hc : Throwing.Call P a c with
    | returned p a1 =>
      rw [hc] at h
      obtain ⟨c1, h1⟩ := Throwing_Call_returned P a c p a1 hc
      obtain ⟨cs1, h2⟩ := Throwing_Run_reach P cs a1 b h
      exact ⟨c1 :: cs1, by simp only [Arena.Run, h1, Option.some_bind]; exact h2⟩
    | bad_alloc a1 =>
      rw [hc] at h
      have := Throwing_Call_bad_alloc P a c a1 hc
      subst this
      exact Throwing_Run_reach P cs a1 b h
    | assertion a1 =>
      rw [hc] at h
      simp at h

/-! # The claims -/

/-! ## C1: versioned lookup -/

/-- C1, as stated, fails: `Add(5, Value, "a", "v1")` and `Add(2^56 + 6, Value, "a", "v2")`
are the only calls, so the only record of key "a" with a sequence at or below snapshot 7 is
the one with sequence 5 and value "v1"; but `(s << 8)` drops the top 8 bits of the second
sequence, its record is stored with sequence 6, and `Get` at snapshot 7 yields "v2". -/
theorem sequence_wrap_hides_newest_value :
    (∀ c ∈ [({ fresh := fun _ => 0, s := 5, type := .kTypeValue, key := [97],
                value := [118, 49] } : AddCall),
             { fresh := fun _ => 0, s := 2 ^ 56 + 6, type := .kTypeValue, key := [97],
                value := [118, 50] }],
        c.key = [97] → c.s ≤ 7 → c.s = 5 ∧ c.type = .kTypeValue ∧ c.value = [118, 49]) ∧
    ((MemTable.new BytewiseComparator).AddAll
        [{ fresh := fun _ => 0, s := 5, type := .kTypeValue, key := [97], value := [118, 49] },
         { fresh := fun _ => 0, s := 2 ^ 56 + 6, type := .kTypeValue, key := [97],
           value := [118, 50] }]).bind
      (fun m => m.Get (LookupKey.new [97] 7) [] Status.OK) =
      some (true, [118, 50], Status.OK) := by
  constructor <;> decide

/-- C1, amended: for every table built from the empty table by `Add` calls whose arguments
fit the format (key length + 8 and value length below 2^32, sequence below 2^56) and every
lookup key of a user key `k` with `k.size() + 8 < 2^32` and a snapshot `s < 2^56`: if some
record has user key `k` and sequence at most `s`, and the records of `k` with the greatest
such sequence have type Value and value `v`, then `Get` returns true, sets the value to
`v` and leaves the status alone. -/
theorem Get_newest_value (uc : Comparator) (calls : List AddCall)
    (hr : ∀ c ∈ calls, c.InRange) (k : List Nat) (s : Nat)
    (hk : k.length + 8 < 2 ^ 32) (hs : s < 2 ^ 56)
    (c : AddCall) (hc : c ∈ calls) (hck : uc.Compare c.key k = .eq) (hcs : c.s ≤ s)
    (v : List Nat)
    (hnewest : ∀ d ∈ calls, uc.Compare d.key k = .eq → d.s ≤ s →
      d.s ≤ c.s ∧ (d.s = c.s → d.type = .kTypeValue ∧ d.value = v))
    (value : List Nat) (st : Status) :
    ∃ m, (MemTable.new uc).AddAll calls = some m ∧
      m.Get (LookupKey.new k s) value st = some (true, v, st) := by
  obtain ⟨m, hm, hcmp, -, hmem, -, hord⟩ := AddAll_new uc calls hr
  obtain ⟨d, rest, hd, hdw, hdk, hds, hmax⟩ :=
    Seek_lands uc calls hr m hcmp hmem hord k s hk hs c hc hck hcs
  refine ⟨m, hm, ?_⟩
  rw [Get_landed m k s value st d (hr d hd) rest hdw, hcmp, if_pos hdk]
  have h1 := hnewest d hd hdk hds
  have h2 := hmax c hc hck hcs
  have h3 := code_le_one c.type
  have h4 := code_le_one d.type
  obtain ⟨ht, hv⟩ := h1.2 (by omega)
  rw [ht, hv]

/-- The scenario of the spec at snapshots 7 and 6: "v2" and "v1". -/
theorem Get_newest_value_witness :
    (∃ m, (MemTable.new BytewiseComparator).AddAll scenario = some m ∧
      m.Get (LookupKey.new [97] 7) [] Status.OK = some (true, [118, 50], Status.OK)) ∧
    (∃ m, (MemTable.new BytewiseComparator).AddAll scenario = some m ∧
      m.Get (LookupKey.new [97] 6) [] Status.OK = some (true, [118, 49], Status.OK)) :=
  ⟨Get_newest_value BytewiseComparator scenario (by decide) [97] 7 (by decide) (by decide)
      { fresh := fun _ => 0, s := 7, type := .kTypeValue, key := [97], value := [118, 50] }
      (by simp [scenario]) (by decide) (by decide) [118, 50] (by decide) [] Status.OK,
    Get_newest_value BytewiseComparator scenario (by decide) [97] 6 (by decide) (by decide)
      { fresh := fun _ => 0, s := 5, type := .kTypeValue, key := [97], value := [118, 49] }
      (by simp [scenario]) (by decide) (by decide) [118, 49] (by decide) [] Status.OK⟩

/-! ## C2: tombstone shadowing -/

/-- C2, as stated, fails: after `Add(5, Deletion, "a", "")` and
`Add(2^56 + 6, Value, "a", "v2")` the only record of "a" with a sequence at or below
snapshot 7 is the tombstone of sequence 5, but the second record is stored with sequence 6
and `Get` at snapshot 7 returns the value "v2" with the status untouched. -/
theorem sequence_wrap_hides_tombstone :
    (∀ c ∈ [({ fresh := fun _ => 0, s := 5, type := .kTypeDeletion, key := [97],
                value := [] } : AddCall),
             { fresh := fun _ => 0, s := 2 ^ 56 + 6, type := .kTypeValue, key := [97],
                value := [118, 50] }],
        c.key = [97] → c.s ≤ 7 → c.s = 5 ∧ c.type = .kTypeDeletion) ∧
    ((MemTable.new BytewiseComparator).AddAll
        [{ fresh := fun _ => 0, s := 5, type := .kTypeDeletion, key := [97], value := [] },
         { fresh := fun _ => 0, s := 2 ^ 56 + 6, type := .kTypeValue, key := [97],
           value := [118, 50] }]).bind
      (fun m => m.Get (LookupKey.new [97] 7) [] Status.OK) =
      some (true, [118, 50], Status.OK) := by
  constructor <;> decide

/-- C2, amended: for every table built from the empty table by `Add` calls whose arguments
fit the format and every lookup key of `k` with `k.size() + 8 < 2^32` and `s < 2^56`: if
some record has user key `k` and sequence at most `s`, and the records of `k` with the
greatest such sequence have type Deletion, then `Get` returns true, sets the status to
NotFound and leaves the output value as it was, whatever older versions the table holds. -/
theorem Get_newest_tombstone (uc : Comparator) (calls : List AddCall)
    (hr : ∀ c ∈ calls, c.InRange) (k : List Nat) (s : Nat)
    (hk : k.length + 8 < 2 ^ 32) (hs : s < 2 ^ 56)
    (c : AddCall) (hc : c ∈ calls) (hck : uc.Compare c.key k = .eq) (hcs : c.s ≤ s)
    (hnewest : ∀ d ∈ calls, uc.Compare d.key k = .eq → d.s ≤ s →
      d.s ≤ c.s ∧ (d.s = c.s → d.type = .kTypeDeletion))
    (value : List Nat) (st : Status) :
    ∃ m, (MemTable.new uc).AddAll calls = some m ∧
      m.Get (LookupKey.new k s) value st = some (true, value, Status.NotFound []) := by
  obtain ⟨m, hm, hcmp, -, hmem, -, hord⟩ := AddAll_new uc calls hr
  obtain ⟨d, rest, hd, hdw, hdk, hds, hmax⟩ :=
    Seek_lands uc calls hr m hcmp hmem hord k s hk hs c hc hck hcs
  refine ⟨m, hm, ?_⟩
  rw [Get_landed m k s value st d (hr d hd) rest hdw, hcmp, if_pos hdk]
  have h1 := hnewest d hd hdk hds
  have h2 := hmax c hc hck hcs
  have h3 := code_le_one c.type
  have h4 := code_le_one d.type
  rw [h1.2 (by omega)]

/-- The scenario of the spec at snapshot 9: the tombstone, with the output value (here
"zz") not written. -/
theorem Get_newest_tombstone_witness :
    ∃ m, (MemTable.new BytewiseComparator).AddAll scenario = some m ∧
      m.Get (LookupKey.new [97] 9) [122, 122] Status.OK =
        some (true, [122, 122], Status.NotFound []) :=
  Get_newest_tombstone BytewiseComparator scenario (by decide) [97] 9 (by decide) (by decide)
    { fresh := fun _ => 0, s := 9, type := .kTypeDeletion, key := [97], value := [] }
    (by simp [scenario]) (by decide) (by decide) (by decide) [122, 122] Status.OK

/-! ## C3: not found at all -/

/-- C3, as stated, fails: after the single call `Add(2^56, Value, "a", "v")` no record of
"a" has a sequence at or below snapshot 5, yet the record is stored with sequence 0 and
`Get` at snapshot 5 returns true. -/
theorem Get_true_without_record :
    (∀ c ∈ [({ fresh := fun _ => 0, s := 2 ^ 56, type := .kTypeValue, key := [97],
                value := [118] } : AddCall)], ¬(c.key = [97] ∧ c.s ≤ 5)) ∧
    ((MemTable.new BytewiseComparator).AddAll
        [{ fresh := fun _ => 0, s := 2 ^ 56, type := .kTypeValue, key := [97],
           value := [118] }]).bind
      (fun m => m.Get (LookupKey.new [97] 5) [] Status.OK) =
      some (true, [118], Status.OK) := by
  constructor <;> decide

/-- C3, amended: for every table built from the empty table by `Add` calls whose arguments
fit the format and every lookup key of `k` with `k.size() + 8 < 2^32` and `s < 2^56`, `Get`
returns, and it returns false exactly when no record has a user key equal to `k` under the
user comparator and a sequence at most `s`; when it returns false the output value and the
output status are unchanged. -/
theorem Get_false_iff (uc : Comparator) (calls : List AddCall)
    (hr : ∀ c ∈ calls, c.InRange) (k : List Nat) (s : Nat)
    (hk : k.length + 8 < 2 ^ 32) (hs : s < 2 ^ 56) (value : List Nat) (st : Status) :
    ∃ m r, (MemTable.new uc).AddAll calls = some m ∧
      m.Get (LookupKey.new k s) value st = some r ∧
      (r.1 = false ↔ ¬ ∃ c ∈ calls, uc.Compare c.key k = .eq ∧ c.s ≤ s) ∧
      (r.1 = false → r = (false, value, st)) := by
  obtain ⟨m, hm, hcmp, -, hmem, -, hord⟩ := AddAll_new uc calls hr
  by_cases hex : ∃ c ∈ calls, uc.Compare c.key k = .eq ∧ c.s ≤ s
  · obtain ⟨c, hc, hck, hcs⟩ := hex
    obtain ⟨d, rest, hd, hdw, hdk, hds, -⟩ :=
      Seek_lands uc calls hr m hcmp hmem hord k s hk hs c hc hck hcs
    refine ⟨m, _, hm, Get_landed m k s value st d (hr d hd) rest hdw, ?_, ?_⟩
    · rw [hcmp, if_pos hdk]
      have : ∃ c ∈ calls, uc.Compare c.key k = .eq ∧ c.s ≤ s := ⟨c, hc, hck, hcs⟩
      cases d.type <;> simp [this]
    · rw [hcmp, if_pos hdk]
      cases d.type <;> simp
  · have hkc := KeyComparator_transCmp uc
    cases hdw : (m.table_.dropWhile fun x =>
        decide (KeyComparator m.comparator_ x (LookupKey.new k s).memtable_key.data_ = .lt)) with
    | nil =>
      exact ⟨m, _, hm, Get_off_end m _ value st hdw, by simp [hex], fun _ => rfl⟩
    | cons e rest =>
      rw [hcmp] at hdw
      obtain ⟨he, hlt, -⟩ := dropWhile_lt_cons _ _ _ e rest hord hdw
      obtain ⟨d, hd, rfl⟩ := (hmem e).mp he
      have hne : uc.Compare d.key k ≠ .eq := by
        intro hdk
        apply hex
        refine ⟨d, hd, hdk, ?_⟩
        rw [KeyComparator_record_lookup _ d (hr d hd) k s hk hs, hdk] at hlt
        have := code_le_one d.type
        simp only at hlt
        by_contra hcon
        rw [if_pos (by omega)] at hlt
        exact hlt rfl
      rw [← hcmp] at hdw
      refine ⟨m, _, hm, Get_landed m k s value st d (hr d hd) rest hdw, ?_, ?_⟩
      · rw [hcmp, if_neg hne]; simp [hex]
      · rw [hcmp, if_neg hne]; intro _; rfl

/-- The scenario of the spec at snapshot 4, below every sequence of "a": not found at all,
value and status as they were. -/
theorem Get_false_iff_witness :
    ∃ m, (MemTable.new BytewiseComparator).AddAll scenario = some m ∧
      m.Get (LookupKey.new [97] 4) [122] Status.OK = some (false, [122], Status.OK) := by
  obtain ⟨m, r, h1, h2, h3, h4⟩ :=
    Get_false_iff BytewiseComparator scenario (by decide) [97] 4 (by decide) (by decide)
      [122] Status.OK
  have hr : r.1 = false := h3.mpr (by decide)
  exact ⟨m, h1, by rw [h2, h4 hr]⟩

/-! ## C4: record round trip -/

/-- C4, as stated, fails: the record `Add(2^56, Value, "a", "v")` writes decodes to sequence
0, not 2^56, because `(s << 8)` keeps only the low 56 bits of the sequence. -/
theorem sequence_wrap_breaks_round_trip :
    (MemTable.AddRecord (fun _ => 0) (2 ^ 56) .kTypeValue [97] [118]).bind DecodeRecord =
      some ([97], 0, ValueType.kTypeValue.code, [118]) := by
  decide

/-- C4, amended: for all inputs to `Add` with `user_key.size() + 8 < 2^32`,
`value.size() < 2^32` and `sequence < 2^56`, `Add` writes a record, and decoding it (varint32
length, key bytes, 8-byte little-endian tag with sequence `tag >> 8` and type `tag & 0xff`,
varint32 length, value bytes) gives back exactly the user key, sequence, type and value. -/
theorem Add_round_trip (fresh : Nat → Nat) (s : Nat) (type : ValueType) (key value : List Nat)
    (hk : key.length + 8 < 2 ^ 32) (hv : value.length < 2 ^ 32) (hs : s < 2 ^ 56) :
    ∃ buf, MemTable.AddRecord fresh s type key value = some buf ∧
      DecodeRecord buf = some (key, s, type.code, value) :=
  ⟨_, AddRecord_eq fresh s type key value hk hv,
    DecodeRecord_RecordLayout s type key value hk hv hs⟩

/-- The round trip of `Add(7, Deletion, "ab", "xyz")` into memory filled with 255. -/
theorem Add_round_trip_witness :
    ∃ buf, MemTable.AddRecord (fun _ => 255) 7 .kTypeDeletion [97, 98] [120, 121, 122] =
        some buf ∧
      DecodeRecord buf = some ([97, 98], 7, ValueType.kTypeDeletion.code, [120, 121, 122]) :=
  Add_round_trip (fun _ => 255) 7 .kTypeDeletion [97, 98] [120, 121, 122]
    (by decide) (by decide) (by decide)

/-! ## C5: record layout -/

/-- C5: for every `Add(sequence, type, user_key, value)` with `user_key.size() + 8` and
`value.size()` below 2^32, whatever the memory held before, the buffer `Add` writes is the
concatenation `varint32(user_key.size() + 8) ++ user_key ++
fixed64_little_endian((sequence << 8) | type) ++ varint32(value.size()) ++ value`; it fills
the `encoded_len` bytes requested and nothing else, and `Add` does nothing but insert it
into the index. -/
theorem Add_record_layout (fresh : Nat → Nat) (s : Nat) (type : ValueType)
    (key value : List Nat) (hk : key.length + 8 < 2 ^ 32) (hv : value.length < 2 ^ 32) :
    MemTable.AddRecord fresh s type key value =
        some (Varint32Bytes (key.length + 8) ++ key ++
          Fixed64Bytes (((s <<< 8) % 2 ^ 64) ||| type.code) ++
          Varint32Bytes value.length ++ value) ∧
      (Varint32Bytes (key.length + 8) ++ key ++
          Fixed64Bytes (((s <<< 8) % 2 ^ 64) ||| type.code) ++
          Varint32Bytes value.length ++ value).length = MemTable.encoded_len key value ∧
      ∀ m : MemTable, m.Add fresh s type key value =
        some { m with table_ := (SkipList.Insert (KeyComparator m.comparator_) m.table_
          (Varint32Bytes (key.length + 8) ++ key ++
            Fixed64Bytes (((s <<< 8) % 2 ^ 64) ||| type.code) ++
            Varint32Bytes value.length ++ value)) } := by
  have hrec := AddRecord_eq fresh s type key value hk hv
  unfold RecordLayout at hrec
  refine ⟨hrec, ?_, fun m => ?_⟩
  · simp only [MemTable.encoded_len, List.length_append, Fixed64Bytes_length,
      VarintLength_eq_length _ hk, VarintLength_eq_length _ hv]
    omega
  · unfold MemTable.Add
    rw [hrec]
    rfl

/-- The layout of `Add(5, Value, "a", "v1")` into memory filled with 255: 13 bytes. -/
theorem Add_record_layout_witness :
    MemTable.AddRecord (fun _ => 255) 5 .kTypeValue [97] [118, 49] =
        some [9, 97, 1, 5, 0, 0, 0, 0, 0, 0, 2, 118, 49] ∧
      MemTable.encoded_len [97] [118, 49] = 13 :=
  ⟨(Add_record_layout (fun _ => 255) 5 .kTypeValue [97] [118, 49] (by decide) (by decide)).1,
    by decide⟩

/-! ## C6: global ordering -/

/-- C6, as stated, fails: after `Add(5, Value, "a", "x")` and `Add(5, Deletion, "a", "")` a
full scan visits two consecutive records with equal user keys whose sequence numbers are
both 5, not strictly decreasing. -/
theorem Scan_equal_sequences :
    ((MemTable.new BytewiseComparator).AddAll
        [{ fresh := fun _ => 0, s := 5, type := .kTypeValue, key := [97], value := [120] },
         { fresh := fun _ => 0, s := 5, type := .kTypeDeletion, key := [97], value := [] }]).map
      (fun m => m.Scan.map fun e => (RecordUserKey e, RecordSequence e)) =
      some [([97], 5), ([97], 5)] := by
  decide

/-- C6, amended: for any sequence of `Add` calls whose arguments fit the format, a walk from
`SeekToFirst` with `Next` until the iterator is invalid visits the records in
non-decreasing internal-key order, user keys ascending under the user comparator, and two
consecutive visited records with equal user keys have non-increasing sequence numbers;
they are strictly decreasing when no two calls share both user key and sequence. -/
theorem Scan_ordered (uc : Comparator) (calls : List AddCall)
    (hr : ∀ c ∈ calls, c.InRange) :
    ∃ m, (MemTable.new uc).AddAll calls = some m ∧
      Ordered (KeyComparator uc) m.Scan ∧
      ∀ pre a b post, m.Scan = pre ++ a :: b :: post →
        uc.Compare (RecordUserKey a) (RecordUserKey b) ≠ .gt ∧
        (uc.Compare (RecordUserKey a) (RecordUserKey b) = .eq →
          RecordSequence b ≤ RecordSequence a ∧
          ((calls.Pairwise fun c d => ¬(uc.Compare c.key d.key = .eq ∧ c.s = d.s)) →
            RecordSequence b < RecordSequence a)) := by
  have huc := uc.total_order
  obtain ⟨m, hm, -, -, hmem, hperm, hord⟩ := AddAll_new uc calls hr
  refine ⟨m, hm, by rw [Scan_eq]; exact hord, ?_⟩
  intro pre a b post hscan
  rw [Scan_eq] at hscan
  have hab : KeyComparator uc a b ≠ .gt :=
    consecutive_of_pairwise (fun x y => KeyComparator uc x y ≠ .gt) hord hscan
  have ha : a ∈ m.table_ := by rw [hscan]; simp
  have hb : b ∈ m.table_ := by rw [hscan]; simp
  obtain ⟨ca, hca, rfl⟩ := (hmem a).mp ha
  obtain ⟨cb, hcb, rfl⟩ := (hmem b).mp hb
  have hra := hr ca hca
  have hrb := hr cb hcb
  rw [RecordUserKey_Record ca hra, RecordUserKey_Record cb hrb,
    RecordSequence_Record ca hra, RecordSequence_Record cb hrb]
  rw [KeyComparator_record_record uc ca cb hra hrb] at hab
  constructor
  · intro h; rw [h] at hab; exact hab rfl
  · intro heq
    rw [heq] at hab
    simp only at hab
    have h1 := code_le_one ca.type
    have h2 := code_le_one cb.type
    have hle : cb.s ≤ ca.s := by
      by_contra hcon
      rw [if_neg (by omega), if_pos (by omega)] at hab
      exact hab rfl
    refine ⟨hle, fun hdist => ?_⟩
    have hmap : (calls.map AddCall.Record).Pairwise fun x y =>
        ¬(uc.Compare (RecordUserKey x) (RecordUserKey y) = .eq ∧
          RecordSequence x = RecordSequence y) := by
      rw [List.pairwise_map]
      refine hdist.imp_of_mem ?_
      intro c d hc hd h
      rw [RecordUserKey_Record c (hr c hc), RecordUserKey_Record d (hr d hd),
        RecordSequence_Record c (hr c hc), RecordSequence_Record d (hr d hd)]
      exact h
    have htab := (hperm.pairwise_iff (fun {x y} h => by
      intro ⟨h1, h2⟩
      exact h ⟨Batteries.OrientedCmp.cmp_eq_eq_symm.mp h1, h2.symm⟩)).mpr hmap
    have hne := consecutive_of_pairwise (fun x y =>
      ¬(uc.Compare (RecordUserKey x) (RecordUserKey y) = .eq ∧
        RecordSequence x = RecordSequence y)) htab hscan
    simp only [RecordUserKey_Record ca hra, RecordUserKey_Record cb hrb,
      RecordSequence_Record ca hra, RecordSequence_Record cb hrb] at hne
    have : ca.s ≠ cb.s := fun h => hne ⟨heq, h⟩
    omega

/-- The scenario of the spec: the scan visits sequences 9, 7, 5 of "a", in that order. -/
theorem Scan_ordered_witness :
    (∀ c ∈ scenario, c.InRange) ∧
    (∃ m, (MemTable.new BytewiseComparator).AddAll scenario = some m ∧
      Ordered (KeyComparator BytewiseComparator) m.Scan ∧
      ∀ pre a b post, m.Scan = pre ++ a :: b :: post →
        BytewiseComparator.Compare (RecordUserKey a) (RecordUserKey b) ≠ .gt ∧
        (BytewiseComparator.Compare (RecordUserKey a) (RecordUserKey b) = .eq →
          RecordSequence b ≤ RecordSequence a ∧
          ((scenario.Pairwise fun c d =>
              ¬(BytewiseComparator.Compare c.key d.key = .eq ∧ c.s = d.s)) →
            RecordSequence b < RecordSequence a))) ∧
    ((MemTable.new BytewiseComparator).AddAll scenario).map
      (fun m => m.Scan.map RecordSequence) = some [9, 7, 5] :=
  ⟨by decide, Scan_ordered BytewiseComparator scenario (by decide), by decide⟩

/-! ## C7: append-only `Add` -/

/-- C7: for every table state and every `Add` call that returns, the records a full scan
yields afterwards are the records it yielded before, unchanged and in the same order, with
the one new record spliced in; nothing is required of the triple added, so this holds also
when it is already present. `Add` returns whenever both lengths fit 32 bits. -/
theorem Add_append_only (m : MemTable) (fresh : Nat → Nat) (s : Nat) (type : ValueType)
    (key value : List Nat) :
    (∀ m1, m.Add fresh s type key value = some m1 →
      ∃ buf pre post, MemTable.AddRecord fresh s type key value = some buf ∧
        m.Scan = pre ++ post ∧ m1.Scan = pre ++ buf :: post) ∧
    (key.length + 8 < 2 ^ 32 → value.length < 2 ^ 32 →
      ∃ m1, m.Add fresh s type key value = some m1) := by
  constructor
  · intro m1 h
    unfold MemTable.Add at h
    cases hrec : MemTable.AddRecord fresh s type key value with
    | none => rw [hrec] at h; simp at h
    | some buf =>
      rw [hrec] at h
      simp only [Option.map_some', Option.some.injEq] at h
      subst h
      obtain ⟨pre, post, h1, h2, -, -⟩ :=
        Insert_splice (KeyComparator m.comparator_) buf m.table_
      exact ⟨buf, pre, post, rfl, by rw [Scan_eq, h1], by rw [Scan_eq]; exact h2⟩
  · intro hk hv
    obtain ⟨m1, h, -, -⟩ := Add_mem_Scan m fresh s type key value hk hv
    exact ⟨m1, h⟩

/-- A table that holds `(5, Value, "a", "v1")` and is given the same triple again then
holds the record twice. -/
theorem Add_append_only_witness :
    ∃ buf pre post,
      MemTable.AddRecord (fun _ => 0) 5 .kTypeValue [97] [118, 49] = some buf ∧
      MemTable.Scan ⟨BytewiseComparator, 0, [[9, 97, 1, 5, 0, 0, 0, 0, 0, 0, 2, 118, 49]]⟩ =
        pre ++ post ∧
      MemTable.Scan ⟨BytewiseComparator, 0, [[9, 97, 1, 5, 0, 0, 0, 0, 0, 0, 2, 118, 49],
        [9, 97, 1, 5, 0, 0, 0, 0, 0, 0, 2, 118, 49]]⟩ = pre ++ buf :: post :=
  (Add_append_only ⟨BytewiseComparator, 0, [[9, 97, 1, 5, 0, 0, 0, 0, 0, 0, 2, 118, 49]]⟩
    (fun _ => 0) 5 .kTypeValue [97] [118, 49]).1 _ rfl

/-! ## C8: iterator key accessor -/

/-- C8, as stated, fails: on the single record of `Add(5, Value, "a", "v")`, reached by
`SeekToFirst`, `key()` returns the 9 bytes of the internal key, "a" followed by the 8-byte
tag `(5 << 8) | 1`, not the 1 byte of the user key. -/
theorem key_accessor_returns_tag :
    ((MemTable.new BytewiseComparator).Add (fun _ => 0) 5 .kTypeValue [97] [118]).map
      (fun m => (m.Scan, m.NewIterator.SeekToFirst.Valid,
        m.NewIterator.SeekToFirst.key.ToBytes)) =
      some ([[9, 97, 1, 5, 0, 0, 0, 0, 0, 0, 1, 118]], true,
        [97, 1, 5, 0, 0, 0, 0, 0, 0]) := by
  decide

/-- C8, amended: for every record inserted by `Add(sequence, type, user_key, value)` with
`user_key.size() + 8` and `value.size()` below 2^32, when a `MemTableIterator` is positioned
on that record, `key()` returns the internal key: the `user_key` bytes passed to `Add`
followed by the 8 bytes of the tag `(sequence << 8) | type`, so the span without its last 8
bytes is exactly `user_key`. -/
theorem MemTableIterator_key_internal (m : MemTable) (fresh : Nat → Nat) (s : Nat)
    (type : ValueType) (key value : List Nat)
    (hk : key.length + 8 < 2 ^ 32) (hv : value.length < 2 ^ 32) :
    ∃ m1 buf, m.Add fresh s type key value = some m1 ∧
      MemTable.AddRecord fresh s type key value = some buf ∧ buf ∈ m1.Scan ∧
      ∀ it : MemTableIterator, it.Valid = true → it.iter_.key = buf →
        it.key.ToBytes = key ++ Fixed64Bytes (((s <<< 8) % 2 ^ 64) ||| type.code) ∧
        ExtractUserKey it.key.ToBytes = key := by
  obtain ⟨m1, h1, h2, h3⟩ := Add_mem_Scan m fresh s type key value hk hv
  refine ⟨m1, _, h1, h2, h3, fun it _ hit => ?_⟩
  have h := key_of_record it s type key value hk hit
  exact ⟨h, by rw [h, ExtractUserKey_append]⟩

/-- The key accessor on the record of `Add(5, Value, "a", "v")`. -/
theorem MemTableIterator_key_internal_witness :
    ∃ m1 buf, (MemTable.new BytewiseComparator).Add (fun _ => 0) 5 .kTypeValue [97] [118] =
        some m1 ∧
      MemTable.AddRecord (fun _ => 0) 5 .kTypeValue [97] [118] = some buf ∧ buf ∈ m1.Scan ∧
      ∀ it : MemTableIterator, it.Valid = true → it.iter_.key = buf →
        it.key.ToBytes = [97] ++ Fixed64Bytes (((5 <<< 8) % 2 ^ 64) ||| ValueType.kTypeValue.code) ∧
        ExtractUserKey it.key.ToBytes = [97] :=
  MemTableIterator_key_internal (MemTable.new BytewiseComparator) (fun _ => 0) 5 .kTypeValue
    [97] [118] (by decide) (by decide)

/-! ## C9: iterator value accessor -/

/-- C9, as stated, fails: `Add` of a value of 2^32 + 2^28 bytes passes its assertion, but the
length it stores is converted to `uint32_t`, so on that record `value()` returns a span of
2^28 bytes, not the 2^32 + 2^28 bytes passed to `Add`. -/
theorem long_value_read_short :
    ∃ m1 buf, (MemTable.new BytewiseComparator).Add (fun _ => 0) 0 .kTypeValue []
        (List.replicate (2 ^ 32 + 2 ^ 28) 0) = some m1 ∧
      m1.Scan = [buf] ∧ m1.NewIterator.SeekToFirst.iter_.key = buf ∧
      m1.NewIterator.SeekToFirst.value.ToBytes.length = 2 ^ 28 ∧
      (List.replicate (2 ^ 32 + 2 ^ 28) 0).length = 2 ^ 32 + 2 ^ 28 := by
  obtain ⟨m1, buf, h1, h2, h3, h4⟩ := value_truncated _ (List.length_replicate _ _)
  exact ⟨m1, buf, h1, h2, h3, h4, List.length_replicate _ _⟩

/-- C9, amended: for every record inserted by `Add(sequence, type, user_key, value)` with
`user_key.size() + 8` and `value.size()` below 2^32, when a `MemTableIterator` is positioned
on that record, `value()` returns a span equal to exactly the value bytes passed to `Add`,
the empty span for an empty value. -/
theorem MemTableIterator_value_exact (m : MemTable) (fresh : Nat → Nat) (s : Nat)
    (type : ValueType) (key value : List Nat)
    (hk : key.length + 8 < 2 ^ 32) (hv : value.length < 2 ^ 32) :
    ∃ m1 buf, m.Add fresh s type key value = some m1 ∧
      MemTable.AddRecord fresh s type key value = some buf ∧ buf ∈ m1.Scan ∧
      ∀ it : MemTableIterator, it.Valid = true → it.iter_.key = buf →
        it.value.ToBytes = value ∧ it.value.size_ = value.length := by
  obtain ⟨m1, h1, h2, h3⟩ := Add_mem_Scan m fresh s type key value hk hv
  refine ⟨m1, _, h1, h2, h3, fun it _ hit => ?_⟩
  exact ⟨value_of_record it s type key value hk hv hit,
    value_size_of_record it s type key value hk hv hit⟩

/-- The value accessor on the record of `Add(9, Deletion, "a", "")`: the empty span. -/
theorem MemTableIterator_value_exact_witness :
    ∃ m1 buf, (MemTable.new BytewiseComparator).Add (fun _ => 0) 9 .kTypeDeletion [97] [] =
        some m1 ∧
      MemTable.AddRecord (fun _ => 0) 9 .kTypeDeletion [97] [] = some buf ∧ buf ∈ m1.Scan ∧
      ∀ it : MemTableIterator, it.Valid = true → it.iter_.key = buf →
        it.value.ToBytes = [] ∧ it.value.size_ = ([] : List Nat).length :=
  MemTableIterator_value_exact (MemTable.new BytewiseComparator) (fun _ => 0) 9
    .kTypeDeletion [97] [] (by decide) (by decide)

/-! ## C10: arena accounting -/

/-- C10: in every state reached from a fresh arena by a sequence of `Allocate` and
`AllocateAligned` calls, `MemoryUsage()` is the sum over the allocated blocks of block size
plus `sizeof(char*)`; it is 0 for the fresh arena; and no further call decreases it. -/
theorem Arena_accounting (sizeof_ptr : Nat) (calls : List ArenaCall) (a : Arena)
    (h : Arena.Run sizeof_ptr Arena.new calls = some a) :
    Arena.new.MemoryUsage = 0 ∧
      a.MemoryUsage = (a.blocks_.map fun b => b.2 + sizeof_ptr).sum ∧
      ∀ c r, Arena.Call sizeof_ptr a c = some r → a.MemoryUsage ≤ r.2.MemoryUsage := by
  have h0 : Arena.new.Accounted sizeof_ptr := rfl
  have h1 := Run_accounted sizeof_ptr calls Arena.new a h0 h
  exact ⟨rfl, h1.1, fun c r hc => (Call_accounted sizeof_ptr a c r h1.1 hc).2⟩

/-- Four calls on a 64-bit target: a standard block for 100 bytes, 3000 more bytes from it,
a dedicated block for 2000 aligned bytes that no longer fit, and 8 aligned bytes from the
standard block again. -/
theorem Arena_accounting_witness :
    Arena.Run 8 Arena.new [.Allocate 100 4096, .Allocate 3000 16384,
        .AllocateAligned 2000 32768, .AllocateAligned 8 0] =
      some ⟨7208, 984, [(4096, 4096), (32768, 2000)], 6112⟩ ∧
    (Arena.new.MemoryUsage = 0 ∧
      Arena.MemoryUsage ⟨7208, 984, [(4096, 4096), (32768, 2000)], 6112⟩ =
        (([(4096, 4096), (32768, 2000)] : List (Nat × Nat)).map fun b => b.2 + 8).sum ∧
      ∀ c r, Arena.Call 8 ⟨7208, 984, [(4096, 4096), (32768, 2000)], 6112⟩ c = some r →
        Arena.MemoryUsage ⟨7208, 984, [(4096, 4096), (32768, 2000)], 6112⟩ ≤
          r.2.MemoryUsage) :=
  ⟨by decide,
    Arena_accounting 8 [.Allocate 100 4096, .Allocate 3000 16384,
      .AllocateAligned 2000 32768, .AllocateAligned 8 0]
      ⟨7208, 984, [(4096, 4096), (32768, 2000)], 6112⟩ (by decide)⟩

/-! ## C11: alignment -/

/-- C11, as stated, fails on a target whose pointers are wider than 8 bytes: with
`sizeof(void*) = 16` the alignment is 16, and on a fresh arena `AllocateAligned(1)` falls
back to a new block; if that block starts at address 8, a multiple of 8, the result is 8
and the alignment assertion fails. -/
theorem block_aligned_to_8_not_to_16 :
    8 % 8 = 0 ∧ Arena.Align 16 = 16 ∧ Arena.AllocateAligned 16 Arena.new 1 8 = none := by
  decide

/-- C11, amended: assuming every newly allocated block starts at an address that is a
multiple of `max(sizeof(void*), 8)` (a power of two, as the static assertion demands; it is
8 on every target with pointers of at most 8 bytes), in every arena state and for every
`n` the address returned by `AllocateAligned(n)` is a multiple of `max(sizeof(void*), 8)`,
on the fast path and on both fallback paths; so the alignment assertion at the end of
`AllocateAligned` never fails. -/
theorem AllocateAligned_alignment (sizeof_ptr k : Nat) (hpow : Arena.Align sizeof_ptr = 2 ^ k)
    (a : Arena) (n heap : Nat) (hheap : heap % Arena.Align sizeof_ptr = 0) :
    ∃ r, Arena.AllocateAligned sizeof_ptr a n heap = some r ∧
      r.1 % Arena.Align sizeof_ptr = 0 ∧
      (r.1 = a.alloc_ptr_ + Arena.Slop sizeof_ptr a ∨ r.1 = heap) := by
  obtain ⟨r, h1, h2⟩ := AllocateAligned_aligned sizeof_ptr k hpow a n heap hheap
  refine ⟨r, h1, h2, ?_⟩
  rw [AllocateAligned_eq] at h1
  split_ifs at h1 <;> simp only [Option.some.injEq] at h1 <;> subst h1
  · exact Or.inl rfl
  · exact Or.inr (AllocateFallback_fst _ _ _ _)

/-- On a 64-bit target, with the cursor at 4100 in the block at 4096: 12 aligned bytes come
from address 4104. -/
theorem AllocateAligned_alignment_witness :
    Arena.Align 8 = 2 ^ 3 ∧ 16384 % Arena.Align 8 = 0 ∧
    ∃ r, Arena.AllocateAligned 8 ⟨4100, 4092, [(4096, 4096)], 4104⟩ 12 16384 = some r ∧
      r.1 % Arena.Align 8 = 0 ∧
      (r.1 = Arena.alloc_ptr_ ⟨4100, 4092, [(4096, 4096)], 4104⟩ +
          Arena.Slop 8 ⟨4100, 4092, [(4096, 4096)], 4104⟩ ∨ r.1 = 16384) :=
  ⟨by decide, by decide,
    AllocateAligned_alignment 8 3 (by decide) ⟨4100, 4092, [(4096, 4096)], 4104⟩ 12 16384
      (by decide)⟩

/-! ## C12: oversized requests -/

/-- C12, as stated, fails: on a fresh arena `Allocate(100)` opens a standard block at 4096;
the following `Allocate(3000)`, larger than a quarter block, fits the 3996 bytes that
remain and is served from that block at 4196: no block is allocated and `MemoryUsage()`
stays at 4104. -/
theorem oversized_request_served_from_current_block :
    Arena.Allocate 8 Arena.new 100 4096 =
      some (4096, ⟨4196, 3996, [(4096, 4096)], 4104⟩) ∧
    Arena.Allocate 8 ⟨4196, 3996, [(4096, 4096)], 4104⟩ 3000 16384 =
      some (4196, ⟨7196, 996, [(4096, 4096)], 4104⟩) := by
  decide

/-- C12, amended: in every arena state, a request `Allocate(n)` with `n > 1024` that
exceeds the remaining capacity of the current block is served by a newly allocated block
sized exactly `n`, and `MemoryUsage()` grows across the call by exactly `n` plus
`sizeof(char*)`; one that fits the remaining capacity is served from the current block,
allocates nothing and leaves `MemoryUsage()` as it was. -/
theorem Allocate_oversized (sizeof_ptr : Nat) (a : Arena) (n heap : Nat) (hn : 1024 < n) :
    (a.alloc_bytes_remaining_ < n →
      ∃ a1, Arena.Allocate sizeof_ptr a n heap = some (heap, a1) ∧
        a1.blocks_ = a.blocks_ ++ [(heap, n)] ∧
        a1.MemoryUsage = a.MemoryUsage + (n + sizeof_ptr)) ∧
    (n ≤ a.alloc_bytes_remaining_ →
      ∃ a1, Arena.Allocate sizeof_ptr a n heap = some (a.alloc_ptr_, a1) ∧
        a1.blocks_ = a.blocks_ ∧ a1.MemoryUsage = a.MemoryUsage) := by
  constructor
  · intro hrem
    have h : Arena.Allocate sizeof_ptr a n heap =
        some (heap, { a with blocks_ := a.blocks_ ++ [(heap, n)]
                             memory_usage_ := a.memory_usage_ + (n + sizeof_ptr) }) := by
      unfold Arena.Allocate
      rw [if_pos (by omega), if_neg (by omega), AllocateFallback_big _ _ _ _ hn]
    exact ⟨_, h, rfl, rfl⟩
  · intro hrem
    have h : Arena.Allocate sizeof_ptr a n heap =
        some (a.alloc_ptr_, { a with alloc_ptr_ := a.alloc_ptr_ + n
                                     alloc_bytes_remaining_ := a.alloc_bytes_remaining_ - n }) := by
      unfold Arena.Allocate
      rw [if_pos (by omega), if_pos hrem]
    exact ⟨_, h, rfl, rfl⟩

/-- A request of 2000 bytes with 996 bytes left gets its own block of 2000 bytes, and one of
2000 bytes with 3996 bytes left is served from the cursor. -/
theorem Allocate_oversized_witness :
    (∃ a1, Arena.Allocate 8 ⟨7196, 996, [(4096, 4096)], 4104⟩ 2000 32768 =
        some (32768, a1) ∧
      a1.blocks_ = [(4096, 4096)] ++ [(32768, 2000)] ∧
      a1.MemoryUsage = 4104 + (2000 + 8)) ∧
    (∃ a1, Arena.Allocate 8 ⟨4196, 3996, [(4096, 4096)], 4104⟩ 2000 32768 =
        some (4196, a1) ∧
      a1.blocks_ = [(4096, 4096)] ∧ a1.MemoryUsage = 4104) :=
  ⟨(Allocate_oversized 8 ⟨7196, 996, [(4096, 4096)], 4104⟩ 2000 32768 (by decide)).1
      (by decide),
    (Allocate_oversized 8 ⟨4196, 3996, [(4096, 4096)], 4104⟩ 2000 32768 (by decide)).2
      (by decide)⟩

/-! ## C13: the precondition of `Allocate` -/

/-- C13, as stated, fails: a fresh arena on a 64-bit target is asked for 2^62 bytes, which
the heap does not have. The request is larger than 0 and passes the assertion, does not fit
the remaining capacity 0, goes to a dedicated block, and `new char[]` throws
`std::bad_alloc`: the call does not return. -/
theorem Allocate_throws_bad_alloc :
    Throwing.Run 8 Arena.new [] = some Arena.new ∧ 0 < 2 ^ 62 ∧ 2 ^ 62 < 2 ^ (8 * 8) ∧
    Throwing.Allocate 8 Arena.new (2 ^ 62) none = .bad_alloc Arena.new ∧
    ¬∃ p a1, Throwing.Allocate 8 Arena.new (2 ^ 62) none = .returned p a1 := by
  refine ⟨rfl, by decide, by decide, by decide, ?_⟩
  rintro ⟨p, a1, h⟩
  have h1 : Throwing.Allocate 8 Arena.new (2 ^ 62) none = .bad_alloc Arena.new := by decide
  rw [h1] at h
  exact ArenaOutcome.noConfusion h

/-- C13, amended: in every state reached from a fresh arena, for every `size_t` value `n`
and whatever the heap does, `Allocate(n)` takes the fatal assertion path if and only if
`n = 0`; a call that fails, by the assertion or by `std::bad_alloc`, leaves every member of
the arena as it was; for `n > 0` the call returns `n` bytes inside one allocated block
whenever `n` fits the remaining capacity of the current block or `new char[]` returns the
block the slow path asks for; and when `n > 0` does not fit and `new char[]` throws, the
exception leaves `Allocate`. -/
theorem Allocate_precondition (sizeof_ptr : Nat) (calls : List Throwing.ArenaCall)
    (a : Arena) (h : Throwing.Run sizeof_ptr Arena.new calls = some a) (n : Nat)
    (_hsize : n < 2 ^ (8 * sizeof_ptr)) (heap : Option Nat) :
    ((∃ a1, Throwing.Allocate sizeof_ptr a n heap = .assertion a1) ↔ n = 0) ∧
    (∀ a1, Throwing.Allocate sizeof_ptr a n heap = .assertion a1 ∨
        Throwing.Allocate sizeof_ptr a n heap = .bad_alloc a1 → a1 = a) ∧
    (0 < n → n ≤ a.alloc_bytes_remaining_ ∨ heap ≠ none →
      ∃ p a1, Throwing.Allocate sizeof_ptr a n heap = .returned p a1 ∧
        InsideOne a1.blocks_ p (p + n)) ∧
    (0 < n → a.alloc_bytes_remaining_ < n → heap = none →
      Throwing.Allocate sizeof_ptr a n heap = .bad_alloc a) := by
  obtain ⟨calls1, hreach⟩ := Throwing_Run_reach sizeof_ptr calls Arena.new a h
  have hcur := Run_CursorAfter sizeof_ptr [] calls1 Arena.new a new_CursorAfter hreach
  have hret : ∀ heap1 : Nat, 0 < n →
      ∃ r, Arena.Allocate sizeof_ptr a n heap1 = some r ∧
        InsideOne r.2.blocks_ r.1 (r.1 + n) := by
    intro heap1 hn
    cases hc : Arena.Allocate sizeof_ptr a n heap1 with
    | none =>
      unfold Arena.Allocate at hc
      rw [if_pos hn] at hc
      split_ifs at hc
    | some r =>
      obtain ⟨later, h1, h2⟩ :=
        (Call_CursorAfter sizeof_ptr [] a (.Allocate n heap1) r hcur hc).2 hn trivial
      refine ⟨r, rfl, ?_⟩
      rw [h1]
      exact h2
  refine ⟨?_, ?_, ?_, ?_⟩
  · cases heap with
    | none =>
      rw [Throwing_Allocate_none]
      constructor
      · rintro ⟨a1, h1⟩
        by_contra hn
        rw [if_pos (by omega)] at h1
        obtain ⟨r, hr, -⟩ := hret 0 (by omega)
        rw [hr] at h1
        split_ifs at h1
      · intro hn
        exact ⟨a, by rw [if_neg (by omega)]⟩
    | some heap1 =>
      rw [Throwing_Allocate_some]
      constructor
      · rintro ⟨a1, h1⟩
        by_contra hn
        obtain ⟨r, hr, -⟩ := hret heap1 (by omega)
        rw [hr] at h1
        exact ArenaOutcome.noConfusion h1
      · intro hn
        refine ⟨a, ?_⟩
        have : Arena.Allocate sizeof_ptr a n heap1 = none := by
          unfold Arena.Allocate
          rw [if_neg (by omega)]
        rw [this]
  · intro a1 h1
    unfold Throwing.Allocate at h1
    cases heap with
    | none =>
      rw [Throwing_AllocateFallback_none] at h1
      split_ifs at h1 <;> rcases h1 with h1 | h1 <;> cases h1
      all_goals rfl
    | some heap1 =>
      rw [Throwing_AllocateFallback_some] at h1
      split_ifs at h1 <;> rcases h1 with h1 | h1 <;> cases h1
      all_goals rfl
  · intro hn hfit
    cases heap with
    | none =>
      have hle : n ≤ a.alloc_bytes_remaining_ := by
        rcases hfit with hfit | hfit
        · exact hfit
        · exact absurd rfl hfit
      obtain ⟨r, hr, hin⟩ := hret 0 hn
      refine ⟨r.1, r.2, ?_, hin⟩
      rw [Throwing_Allocate_none, if_pos hn, if_pos hle, hr]
    | some heap1 =>
      obtain ⟨r, hr, hin⟩ := hret heap1 hn
      refine ⟨r.1, r.2, ?_, hin⟩
      rw [Throwing_Allocate_some, hr]
  · intro hn hrem hheap
    subst hheap
    rw [Throwing_Allocate_none, if_pos hn, if_neg (by omega)]

/-- After `Allocate(100)` has opened the block at 4096 and an `Allocate(5000)` has met a
heap that refused, the arena is as the first call left it. There `Allocate(0)` fails its
assertion, `Allocate(50)` returns 50 bytes of the block at 4096 though the heap would refuse,
and `Allocate(5000)` leaves by `std::bad_alloc` with the arena unchanged. -/
theorem Allocate_precondition_witness :
    Throwing.Run 8 Arena.new [.Allocate 100 (some 4096), .Allocate 5000 none] =
      some ⟨4196, 3996, [(4096, 4096)], 4104⟩ ∧
    (∃ a1, Throwing.Allocate 8 ⟨4196, 3996, [(4096, 4096)], 4104⟩ 0 none = .assertion a1) ∧
    (∀ a1, Throwing.Allocate 8 ⟨4196, 3996, [(4096, 4096)], 4104⟩ 0 none = .assertion a1 ∨
        Throwing.Allocate 8 ⟨4196, 3996, [(4096, 4096)], 4104⟩ 0 none = .bad_alloc a1 →
      a1 = ⟨4196, 3996, [(4096, 4096)], 4104⟩) ∧
    (∃ p a1, Throwing.Allocate 8 ⟨4196, 3996, [(4096, 4096)], 4104⟩ 50 none =
        .returned p a1 ∧ InsideOne a1.blocks_ p (p + 50)) ∧
    Throwing.Allocate 8 ⟨4196, 3996, [(4096, 4096)], 4104⟩ 5000 none =
      .bad_alloc ⟨4196, 3996, [(4096, 4096)], 4104⟩ :=
  ⟨by decide,
    (Allocate_precondition 8 [.Allocate 100 (some 4096), .Allocate 5000 none]
      ⟨4196, 3996, [(4096, 4096)], 4104⟩ (by decide) 0 (by decide) none).1.mpr rfl,
    (Allocate_precondition 8 [.Allocate 100 (some 4096), .Allocate 5000 none]
      ⟨4196, 3996, [(4096, 4096)], 4104⟩ (by decide) 0 (by decide) none).2.1,
    (Allocate_precondition 8 [.Allocate 100 (some 4096), .Allocate 5000 none]
      ⟨4196, 3996, [(4096, 4096)], 4104⟩ (by decide) 50 (by decide) none).2.2.1
      (by decide) (Or.inl (by decide)),
    (Allocate_precondition 8 [.Allocate 100 (some 4096), .Allocate 5000 none]
      ⟨4196, 3996, [(4096, 4096)], 4104⟩ (by decide) 5000 (by decide) none).2.2.2
      (by decide) (by decide) rfl⟩

/-! ## C14: zero-length aligned request -/

/-- C14 fails on the code: `AllocateAligned` has no check of `bytes`. On a fresh arena
`AllocateAligned(0)` returns the null pointer and leaves the arena as it was; with the
cursor at 4097 it returns 4104 and consumes the 7 bytes of padding. Neither call takes an
assertion path, while `Allocate(0)` does. -/
theorem AllocateAligned_zero_returns :
    Arena.AllocateAligned 8 Arena.new 0 4096 = some (0, Arena.new) ∧
    Arena.AllocateAligned 8 ⟨4097, 4095, [(4096, 4096)], 4104⟩ 0 16384 =
      some (4104, ⟨4104, 4088, [(4096, 4096)], 4104⟩) ∧
    Arena.Allocate 8 Arena.new 0 4096 = none := by
  decide

/-! ## C15: destruction contract -/

/-- C15: a table is created with reference count 0; destroying a table takes the fatal
assertion path if and only if its reference count is not 0 at that moment; and a call of
`Add`, `Get`, `NewIterator` or `ApproximateMemoryUsage` that returns leaves the reference
count as it was. -/
theorem MemTable_destruction (comparator : Comparator) :
    (MemTable.new comparator).refs_ = 0 ∧
    (∀ m : MemTable, m.Destroy = none ↔ m.refs_ ≠ 0) ∧
    (∀ (m m1 : MemTable) (c : MemTableCall), m.Call c = some m1 → m1.refs_ = m.refs_) := by
  refine ⟨rfl, fun m => ?_, fun m m1 c h => ?_⟩
  · unfold MemTable.Destroy
    split_ifs <;> simp [*]
  · cases c with
    | Add fresh s type key value =>
      simp only [MemTable.Call, MemTable.Add] at h
      cases hrec : MemTable.AddRecord fresh s type key value with
      | none => rw [hrec] at h; simp at h
      | some buf =>
        rw [hrec] at h
        simp only [Option.map_some', Option.some.injEq] at h
        subst h
        rfl
    | Get key value s =>
      simp only [MemTable.Call] at h
      cases hg : m.Get key value s with
      | none => rw [hg] at h; simp at h
      | some r =>
        rw [hg] at h
        simp only [Option.map_some', Option.some.injEq] at h
        subst h
        rfl
    | NewIterator =>
      simp only [MemTable.Call, Option.map_some', Option.some.injEq] at h
      subst h
      rfl
    | ApproximateMemoryUsage arena_ =>
      simp only [MemTable.Call, Option.map_some', Option.some.injEq] at h
      subst h
      rfl

/-- A table with two references cannot be destroyed, the new table can, and `Add` on a
table with two references leaves it with two. -/
theorem MemTable_destruction_witness :
    MemTable.Destroy ⟨BytewiseComparator, 2, []⟩ = none ∧
    (MemTable.new BytewiseComparator).Destroy = some () ∧
    ∃ m1, MemTable.Call ⟨BytewiseComparator, 2, []⟩
        (.Add (fun _ => 0) 5 .kTypeValue [97] [118]) = some m1 ∧ m1.refs_ = 2 :=
  ⟨((MemTable_destruction BytewiseComparator).2.1 ⟨BytewiseComparator, 2, []⟩).mpr
      (by decide),
    by decide,
    _, rfl, (MemTable_destruction BytewiseComparator).2.2 ⟨BytewiseComparator, 2, []⟩ _
      (.Add (fun _ => 0) 5 .kTypeValue [97] [118]) rfl⟩

/-! ## C16: atomic visibility

Not stated here: the claim is about the interleaving of a reader with the steps of one
insertion into the ordered index, which has no counterpart in a sequential embedding. -/

/-! ## C17: the slow path of a small request -/

/-- C17 fails on the code. On a 64-bit target `Allocate(1000)` and `Allocate(3000)` leave
the cursor at 69536 with 96 bytes remaining in the block at 65536. `Allocate(100)` does not
fit: it opens a block of 4096 bytes at 4096, `MemoryUsage()` grows by 4104, the call
returns the start of the block and leaves the cursor at 4196 with 3996 bytes remaining, as
the claim says, and the byte at 69536 belongs to the tail left behind. A later
`AllocateAligned(2^64 - 4)` computes the padding 4, the sum `bytes + slop` wraps to 0, the
fast path is taken and the call returns 4200: the `2^64 - 4` bytes it hands out from there
include the byte at 69536 of the old tail. -/
theorem wrapped_request_returns_old_tail :
    Arena.Run 8 Arena.new [.Allocate 1000 65536, .Allocate 3000 0] =
      some ⟨69536, 96, [(65536, 4096)], 4104⟩ ∧
    Arena.Allocate 8 ⟨69536, 96, [(65536, 4096)], 4104⟩ 100 4096 =
      some (4096, ⟨4196, 3996, [(65536, 4096), (4096, 4096)], 8208⟩) ∧
    Arena.Unused ⟨69536, 96, [(65536, 4096)], 4104⟩ 69536 ∧
    Arena.BlocksDisjoint ⟨4196, 3996, [(65536, 4096), (4096, 4096)], 8208⟩ ∧
    Arena.Slop 8 ⟨4196, 3996, [(65536, 4096), (4096, 4096)], 8208⟩ = 4 ∧
    (2 ^ 64 - 4 + 4) % 2 ^ (8 * 8) = 0 ∧
    Arena.AllocateAligned 8 ⟨4196, 3996, [(65536, 4096), (4096, 4096)], 8208⟩
        (2 ^ 64 - 4) 0 =
      some (4200, ⟨4196, 3996, [(65536, 4096), (4096, 4096)], 8208⟩) ∧
    (4200 ≤ 69536 ∧ 69536 < 4200 + (2 ^ 64 - 4)) := by
  refine ⟨by decide, by decide, ?_, ?_, by decide, by decide, by decide, by decide⟩
  · unfold Arena.Unused; decide
  · unfold Arena.BlocksDisjoint; decide

/-! ## C18: the slow path of an oversized request -/

/-- C18: when `n > 1024` and `n` exceeds the remaining capacity of the current block,
`Allocate(n)` allocates a dedicated block of exactly `n` bytes, returns its start and leaves
the cursor and its remaining capacity unchanged; so a following request that fits the old
remaining capacity is served from the old cursor position and allocates nothing. -/
theorem Allocate_oversized_keeps_cursor (sizeof_ptr : Nat) (a : Arena) (n heap : Nat)
    (hn : 1024 < n) (hrem : a.alloc_bytes_remaining_ < n) :
    ∃ a1, Arena.Allocate sizeof_ptr a n heap = some (heap, a1) ∧
      a1.blocks_ = a.blocks_ ++ [(heap, n)] ∧
      a1.alloc_ptr_ = a.alloc_ptr_ ∧
      a1.alloc_bytes_remaining_ = a.alloc_bytes_remaining_ ∧
      ∀ k heap2, 0 < k → k ≤ a.alloc_bytes_remaining_ →
        ∃ a2, Arena.Allocate sizeof_ptr a1 k heap2 = some (a.alloc_ptr_, a2) ∧
          a2.blocks_ = a1.blocks_ ∧ a2.MemoryUsage = a1.MemoryUsage ∧
          a2.alloc_ptr_ = a.alloc_ptr_ + k ∧
          a2.alloc_bytes_remaining_ = a.alloc_bytes_remaining_ - k := by
  have h : Arena.Allocate sizeof_ptr a n heap =
      some (heap, { a with blocks_ := a.blocks_ ++ [(heap, n)]
                           memory_usage_ := a.memory_usage_ + (n + sizeof_ptr) }) := by
    unfold Arena.Allocate
    rw [if_pos (by omega), if_neg (by omega), AllocateFallback_big _ _ _ _ hn]
  refine ⟨_, h, rfl, rfl, rfl, fun k heap2 hk hfit => ?_⟩
  have h2 : Arena.Allocate sizeof_ptr
      { a with blocks_ := a.blocks_ ++ [(heap, n)]
               memory_usage_ := a.memory_usage_ + (n + sizeof_ptr) } k heap2 =
      some (a.alloc_ptr_, ⟨a.alloc_ptr_ + k, a.alloc_bytes_remaining_ - k,
        a.blocks_ ++ [(heap, n)], a.memory_usage_ + (n + sizeof_ptr)⟩) := by
    unfold Arena.Allocate
    rw [if_pos hk, if_pos hfit]
  exact ⟨_, h2, rfl, rfl, rfl, rfl⟩

/-- With 996 bytes left at 7196, `Allocate(2000)` gets its own block and the cursor stays;
the following `Allocate(500)` is served at 7196. -/
theorem Allocate_oversized_keeps_cursor_witness :
    ∃ a1, Arena.Allocate 8 ⟨7196, 996, [(4096, 4096)], 4104⟩ 2000 32768 = some (32768, a1) ∧
      a1.blocks_ = [(4096, 4096)] ++ [(32768, 2000)] ∧
      a1.alloc_ptr_ = 7196 ∧ a1.alloc_bytes_remaining_ = 996 ∧
      ∀ k heap2, 0 < k → k ≤ 996 →
        ∃ a2, Arena.Allocate 8 a1 k heap2 = some (7196, a2) ∧
          a2.blocks_ = a1.blocks_ ∧ a2.MemoryUsage = a1.MemoryUsage ∧
          a2.alloc_ptr_ = 7196 + k ∧ a2.alloc_bytes_remaining_ = 996 - k :=
  Allocate_oversized_keeps_cursor 8 ⟨7196, 996, [(4096, 4096)], 4104⟩ 2000 32768
    (by decide) (by decide)

/-! ## C19: disjoint allocations -/

/-- C19 fails on the code: on a 64-bit target, after `Allocate(4)` has left the cursor at
4100 in the block of 4096 bytes at 4096, `AllocateAligned(2^64 - 4)` computes the padding
4, the sum `bytes + slop` wraps to 0, the fast path is taken and the call returns 4104
without moving the cursor. The span of `2^64 - 4` bytes from 4104 does not lie inside the
only block, which ends at 8192, and the next `Allocate(8)` returns 4100, whose 8 bytes
overlap it. -/
theorem AllocateAligned_wraps :
    Arena.Run 8 Arena.new [.Allocate 4 4096] = some ⟨4100, 4092, [(4096, 4096)], 4104⟩ ∧
    Arena.Slop 8 ⟨4100, 4092, [(4096, 4096)], 4104⟩ = 4 ∧
    (2 ^ 64 - 4 + 4) % 2 ^ (8 * 8) = 0 ∧
    Arena.AllocateAligned 8 ⟨4100, 4092, [(4096, 4096)], 4104⟩ (2 ^ 64 - 4) 0 =
      some (4104, ⟨4100, 4092, [(4096, 4096)], 4104⟩) ∧
    ¬InsideOne [(4096, 4096)] 4104 (4104 + (2 ^ 64 - 4)) ∧
    Arena.Allocate 8 ⟨4100, 4092, [(4096, 4096)], 4104⟩ 8 0 =
      some (4100, ⟨4108, 4084, [(4096, 4096)], 4104⟩) ∧
    (4100 ≤ 4104 ∧ 4104 < 4100 + 8) := by
  refine ⟨by decide, by decide, by decide, by decide, ?_, by decide, by decide⟩
  rintro ⟨b, hb, h1, h2⟩
  simp only [List.mem_singleton] at hb
  subst hb
  simp at h2

/-! ## C20: the length assertion of `Add` -/

/-- C20: for every user key and value with `user_key.size() + 8` and `value.size()` below
2^32, the bytes `Add` writes (two varints, the key, the 8-byte tag, the value) number exactly
`encoded_len`; every write stays inside the buffer of `encoded_len` bytes and the final
assertion holds, so the record is written; and `encoded_len > 0`, so the request to the
arena meets its precondition in every arena state. -/
theorem Add_length_assertion (fresh : Nat → Nat) (s : Nat) (type : ValueType)
    (key value : List Nat) (hk : key.length + 8 < 2 ^ 32) (hv : value.length < 2 ^ 32) :
    (Varint32Bytes ((key.length + 8) % 2 ^ 32)).length + key.length + 8 +
        (Varint32Bytes (value.length % 2 ^ 32)).length + value.length =
      MemTable.encoded_len key value ∧
    (∃ buf, MemTable.AddRecord fresh s type key value = some buf ∧
      buf.length = MemTable.encoded_len key value) ∧
    0 < MemTable.encoded_len key value ∧
    ∀ (sizeof_ptr : Nat) (a : Arena) (heap : Nat),
      Arena.Allocate sizeof_ptr a (MemTable.encoded_len key value) heap ≠ none := by
  have hlen : (Varint32Bytes ((key.length + 8) % 2 ^ 32)).length + key.length + 8 +
      (Varint32Bytes (value.length % 2 ^ 32)).length + value.length =
      MemTable.encoded_len key value := by
    rw [Nat.mod_eq_of_lt hk, Nat.mod_eq_of_lt hv]
    simp only [MemTable.encoded_len, VarintLength_eq_length _ hk, VarintLength_eq_length _ hv]
    omega
  have hpos : 0 < MemTable.encoded_len key value := by
    rw [← hlen]; omega
  refine ⟨hlen, ⟨_, AddRecord_eq fresh s type key value hk hv, ?_⟩, hpos, ?_⟩
  · rw [← hlen, Nat.mod_eq_of_lt hk, Nat.mod_eq_of_lt hv]
    simp only [RecordLayout, List.length_append, Fixed64Bytes_length]
  · intro P a heap hnone
    unfold Arena.Allocate at hnone
    rw [if_pos hpos] at hnone
    split_ifs at hnone

/-- For `Add(5, Value, "a", "v1")`: 1 + 1 + 8 + 1 + 2 = 13 = `encoded_len`. -/
theorem Add_length_assertion_witness :
    (Varint32Bytes (([97] : List Nat).length + 8)).length + ([97] : List Nat).length + 8 +
        (Varint32Bytes ([118, 49] : List Nat).length).length +
        ([118, 49] : List Nat).length = 13 ∧
    MemTable.encoded_len [97] [118, 49] = 13 ∧
    ∃ buf, MemTable.AddRecord (fun _ => 255) 5 .kTypeValue [97] [118, 49] = some buf ∧
      buf.length = MemTable.encoded_len [97] [118, 49] :=
  ⟨by decide, by decide,
    (Add_length_assertion (fun _ => 255) 5 .kTypeValue [97] [118, 49]
      (by decide) (by decide)).2.1⟩

end kirisamedb
